import Mathlib

attribute [local semireducible] Rat.add Rat.mul

/-!
Verification of the stagecoach dynamic-programming solver
(`src/stagecoach.py` of Visqy/stagecoach-solver-gui).

The Python module works on layered graphs: `layers` is a list of stages
(lists of node names), `edges` maps a source node to a map from destination
node to a numeric weight, and the solver runs a backward DP pass from the
goal, combining an edge weight with the downstream optimal value by `+` or
`*` and selecting the minimum or maximum candidate per `opt_mode`.

Numbers: the Python code computes with IEEE doubles, using `math.inf` as
the sentinel initial value of the per-node extremum, so sums and products
with infinities (and the resulting NaNs, e.g. `0.0 * inf`) are semantically
relevant.  We model the float values that actually arise as the type `F`:
finite rationals extended with `+inf`, `-inf` and `NaN`, with the addition,
multiplication, `<` and `==` of IEEE arithmetic restricted to those values
(all finite inputs of the program are exact decimals, so rationals model
them faithfully; no rounding occurs in the claims under study, which are
about the algorithm rather than precision).

Python dicts are modelled as association lists in insertion order: `dget`
is `dict.get`, returning the binding of the first matching key (keys are
unique in any dict produced by JSON decoding / the solver itself, and new
solver bindings are consed in front, matching overwrite semantics).

Python exceptions are modelled by `Except PyError`; `PyError` distinguishes
`ValueError` and `RuntimeError` and carries the exact message text built by
the source.  The unbounded `while`/recursion of the representative-path
walk is modelled with explicit fuel (`layers.length` steps suffice, as the
walk climbs one stage per step); exhaustion is a distinct artifact value
`PyError.fuelExhausted`, which the development proves unreachable in every
situation the claims touch.
-/

/-- IEEE-style extended values: NaN, -infinity, +infinity, finite rational. -/
inductive F : Type where
  | nan : F
  | ninf : F
  | pinf : F
  | fin : ℚ → F
deriving DecidableEq, Repr

/-- IEEE addition on `F` (Python `+` on floats). -/
def fadd : F → F → F
  | F.nan, _ => F.nan
  | _, F.nan => F.nan
  | F.pinf, F.ninf => F.nan
  | F.ninf, F.pinf => F.nan
  | F.pinf, _ => F.pinf
  | F.ninf, _ => F.ninf
  | F.fin _, F.pinf => F.pinf
  | F.fin _, F.ninf => F.ninf
  | F.fin a, F.fin b => F.fin (a + b)

/-- IEEE multiplication on `F` (Python `*` on floats); `0 * inf = NaN`. -/
def fmul : F → F → F
  | F.nan, _ => F.nan
  | _, F.nan => F.nan
  | F.pinf, F.pinf => F.pinf
  | F.pinf, F.ninf => F.ninf
  | F.ninf, F.pinf => F.ninf
  | F.ninf, F.ninf => F.pinf
  | F.pinf, F.fin q => if 0 < q then F.pinf else if q < 0 then F.ninf else F.nan
  | F.ninf, F.fin q => if 0 < q then F.ninf else if q < 0 then F.pinf else F.nan
  | F.fin q, F.pinf => if 0 < q then F.pinf else if q < 0 then F.ninf else F.nan
  | F.fin q, F.ninf => if 0 < q then F.ninf else if q < 0 then F.pinf else F.nan
  | F.fin a, F.fin b => F.fin (a * b)

/-- IEEE strict comparison on `F` (Python `<` on floats); false on NaN. -/
def flt : F → F → Bool
  | F.nan, _ => false
  | _, F.nan => false
  | F.ninf, F.ninf => false
  | F.ninf, _ => true
  | F.pinf, _ => false
  | F.fin _, F.ninf => false
  | F.fin _, F.pinf => true
  | F.fin a, F.fin b => decide (a < b)

/-- IEEE equality on `F` (Python `==` on floats); false on NaN. -/
def feq : F → F → Bool
  | F.nan, _ => false
  | _, F.nan => false
  | F.ninf, F.ninf => true
  | F.pinf, F.pinf => true
  | F.fin a, F.fin b => decide (a = b)
  | _, _ => false

/-- Lookup in an association list, modelling Python `dict.get` (keys being
unique in every dict the program builds; fresh solver bindings are consed in
front so the first hit is the current binding). -/
def dget {β : Type} : List (String × β) → String → Option β
  | [], _ => none
  | (k, b) :: rest, key => if k = key then some b else dget rest key

/-- Python `dict.get(key, default)`. -/
def dgetD {β : Type} (d : List (String × β)) (key : String) (dflt : β) : β :=
  (dget d key).getD dflt

/-- Python exceptions raised by the module, carrying the message text.
`fuelExhausted` is the artifact value of the fuel-bounded walk model; it is
proved unreachable wherever the claims apply. -/
inductive PyError : Type where
  | valueError : String → PyError
  | runtimeError : String → PyError
  | keyError : String → PyError
  | fuelExhausted : PyError
deriving DecidableEq, Repr

/-- Message of `raise ValueError("layers harus list of non-empty lists.")`. -/
def layersMsg : String := "layers harus list of non-empty lists."

/-- Message of the duplicate-node check in `_validate_stagecoach`. -/
def dupMsg (u : String) : String :=
  "Node \x27" ++ u ++ "\x27 muncul di lebih dari satu stage."

/-- Message of the unknown start/goal check in `_validate_stagecoach`. -/
def startGoalMsg : String := "start/goal tidak ada di layers."

/-- Message of the boundary-stage check in `_validate_stagecoach`. -/
def boundaryMsg : String := "start harus di stage 0 dan goal di stage terakhir."

/-- Message of the unknown-edge-endpoint check in `_validate_stagecoach`. -/
def unknownNodeMsg (n : String) : String :=
  "Node \x27" ++ n ++ "\x27 pada edges tidak terdapat pada layers."

/-- Message of the edge-direction check in `_validate_stagecoach`. -/
def edgeMsg (u v : String) : String :=
  "Edge " ++ u ++ "->" ++ v ++ " harus menuju stage berikutnya (t+1)."

/-- Message of the `opt_mode` configuration check in `solve_stagecoach_dp`. -/
def optModeMsg : String := "opt_mode harus \x27min\x27 atau \x27max\x27."

/-- Message of the `combine_op` configuration check in `solve_stagecoach_dp`. -/
def combineOpMsg : String := "combine_op harus \x27+\x27 (jumlah) atau \x27*\x27 (kali)."

/-- Message of the dead-end check in the backward pass; the code raises it
with the 1-based stage number `t+1` of the successor layer. -/
def deadEndMsg (u : String) (s : Nat) : String :=
  "Tidak ada successor valid dari node \x27" ++ u ++ "\x27 pada stage " ++ toString s ++ "."

/-- Message of the stuck representative-path walk (`RuntimeError`). -/
def noPathMsg (u : String) : String :=
  "Path buntu di node " ++ u ++ ". Periksa edges."

/-- Inner loop of `_validate_stagecoach` over one layer: record each node's
stage, failing if the node already has one. New bindings are consed in front
(keys stay unique because of the very check performed here). -/
def addLayer (k : Nat) : List String → List (String × Nat) →
    Except PyError (List (String × Nat))
  | [], acc => .ok acc
  | u :: us, acc =>
    if (dget acc u).isSome then .error (.valueError (dupMsg u))
    else addLayer k us ((u, k) :: acc)

/-- Outer loop of `_validate_stagecoach` building the node-to-stage map. -/
def buildStageOf : Nat → List (List String) → List (String × Nat) →
    Except PyError (List (String × Nat))
  | _, [], acc => .ok acc
  | k, l :: ls, acc =>
    match addLayer k l acc with
    | .error e => .error e
    | .ok acc2 => buildStageOf (k + 1) ls acc2

/-- Edge-direction check of `_validate_stagecoach` over one adjacency dict. -/
def checkNbrs (so : List (String × Nat)) (su : Nat) (u : String) :
    List (String × ℚ) → Except PyError Unit
  | [] => .ok ()
  | (v, _) :: rest =>
    match dget so v with
    | none => .error (.valueError (unknownNodeMsg v))
    | some sv =>
      if sv ≠ su + 1 then .error (.valueError (edgeMsg u v))
      else checkNbrs so su u rest

/-- Edge checks of `_validate_stagecoach` over the whole edge dict. -/
def checkEdges (so : List (String × Nat)) :
    List (String × List (String × ℚ)) → Except PyError Unit
  | [] => .ok ()
  | (u, nbrs) :: rest =>
    match dget so u with
    | none => .error (.valueError (unknownNodeMsg u))
    | some su =>
      match checkNbrs so su u nbrs with
      | .error e => .error e
      | .ok _ => checkEdges so rest

/-- `_validate_stagecoach(layers, edges, start, goal)`: validates the staged
structure and returns the node-to-stage map together with the flatten order. -/
def _validate_stagecoach (layers : List (List String))
    (edges : List (String × List (String × ℚ))) (start goal : String) :
    Except PyError (List (String × Nat) × List String) :=
  if layers = [] ∨ ∃ l ∈ layers, l = [] then .error (.valueError layersMsg)
  else
    match buildStageOf 0 layers [] with
    | .error e => .error e
    | .ok so =>
      if (dget so start).isNone ∨ (dget so goal).isNone then
        .error (.valueError startGoalMsg)
      else if ¬ (dget so start = some 0 ∧ dget so goal = some (layers.length - 1)) then
        .error (.valueError boundaryMsg)
      else
        match checkEdges so edges with
        | .error e => .error e
        | .ok _ => .ok (so, layers.foldr (fun l acc => l ++ acc) [])

/-- Per-stage row of the report table: the node, its candidate aggregate
toward every next-stage node (`none` where no edge exists), its optimal
value, and the comma-joined tied successors, as assembled at lines 130-132
of the source (the integral-collapse of the display is rendering). -/
structure Row : Type where
  node : String
  totals : List (Option F)
  best : F
  nexts : String
deriving DecidableEq, Repr

/-- One per-stage report: the transition index `t` it was computed for, the
title string, the header row and the data rows (`tabulate` only formats
these into a grid and is an external collaborator). -/
structure StageReport : Type where
  stage : Nat
  title : String
  headers : List String
  rows : List Row
deriving DecidableEq, Repr

/-- Result bundle of `solve_stagecoach_dp`. -/
structure StagecoachResult : Type where
  optimal_cost : F
  path : List String
  tables : List StageReport
  f_star : List (String × F)
  policy : List (String × List String)
deriving DecidableEq, Repr

/-- The sentinel initial extremum (`math.inf` for min, `-math.inf` for max). -/
def aggInit (opt : String) : F := if opt = "min" then F.pinf else F.ninf

/-- The strict-improvement comparison chosen from `opt_mode`
(`a < b` for min, `a > b` for max). -/
def betterF (opt : String) (a b : F) : Bool :=
  if opt = "min" then flt a b else flt b a

/-- `candidate = combine(edge_weight, downstream value)` per `combine_op`. -/
def combineF (op : String) (w : ℚ) (x : F) : F :=
  if op = "+" then fadd (F.fin w) x else fmul (F.fin w) x

/-- The identity element the goal is initialised with (0 for `+`, 1 for `*`). -/
def identF (op : String) : F := if op = "+" then F.fin 0 else F.fin 1

/-- The `totals` column list of one row: candidate per next-stage node, blank
(`none`) where no edge exists. -/
def totalsOf (op opt : String) (fst : List (String × F)) (nbrs : List (String × ℚ))
    (next : List String) : List (Option F) :=
  next.map (fun v => (dget nbrs v).map (fun w => combineF op w (dgetD fst v (aggInit opt))))

/-- The inner scan over the next layer keeping the extreme candidate and all
tied successors: strict improvement resets the candidate set, exact `==`
equality appends (lines 108-122 of the source). -/
def bestGo (op opt : String) (fst : List (String × F)) (nbrs : List (String × ℚ)) :
    List String → F → List String → F × List String
  | [], b, vs => (b, vs)
  | v :: rest, b, vs =>
    match dget nbrs v with
    | none => bestGo op opt fst nbrs rest b vs
    | some w =>
      let tot := combineF op w (dgetD fst v (aggInit opt))
      if betterF opt tot b then bestGo op opt fst nbrs rest tot [v]
      else if feq tot b then bestGo op opt fst nbrs rest b (vs ++ [v])
      else bestGo op opt fst nbrs rest b vs

/-- The scan started from the sentinel with an empty candidate set. -/
def bestOf (op opt : String) (fst : List (String × F)) (nbrs : List (String × ℚ))
    (next : List String) : F × List String :=
  bestGo op opt fst nbrs next (aggInit opt) []

/-- Title string of a per-stage table, `f"Stage {t+1} ({opt_mode}, op={combine_op})"`. -/
def stageTitle (opt op : String) (t : Nat) : String :=
  "Stage " ++ toString (t + 1) ++ " (" ++ opt ++ ", op=" ++ op ++ ")"

/-- Processing of the nodes of the current stage (`for u in current`): scan
the successors, fail with the dead-end `ValueError` when no candidate was
retained, and otherwise record `f_star[u]` and `policy[u]` plus a table row. -/
def processNodes (op opt : String) (edges : List (String × List (String × ℚ)))
    (next : List String) (t : Nat) :
    List String → List (String × F) → List (String × List String) → List Row →
    Except PyError (List (String × F) × List (String × List String) × List Row)
  | [], fst, pol, rows => .ok (fst, pol, rows)
  | u :: rest, fst, pol, rows =>
    let nbrs := dgetD edges u []
    let b := bestOf op opt fst nbrs next
    if b.2 = [] then .error (.valueError (deadEndMsg u (t + 1)))
    else
      processNodes op opt edges next t rest ((u, b.1) :: fst) ((u, b.2) :: pol)
        (rows ++ [⟨u, totalsOf op opt fst nbrs next, b.1, String.intercalate "," b.2⟩])

/-- DP state threaded through the backward pass. -/
structure DPState : Type where
  f_star : List (String × F)
  policy : List (String × List String)
  tables : List StageReport
deriving DecidableEq, Repr

/-- One iteration of the backward loop for transition index `t`. -/
def processStage (op opt : String) (layers : List (List String))
    (edges : List (String × List (String × ℚ))) (t : Nat) (st : DPState) :
    Except PyError DPState :=
  let current := layers.getD t []
  let next := layers.getD (t + 1) []
  match processNodes op opt edges next t current st.f_star st.policy [] with
  | .error e => .error e
  | .ok (fst, pol, rows) =>
    .ok ⟨fst, pol, st.tables ++
      [⟨t, stageTitle opt op t, ["node"] ++ next ++ ["f* (node)", "next*"], rows⟩]⟩

/-- The backward loop `for t in range(K-1, -1, -1)`: `runStages n` processes
transitions `n-1, n-2, ..., 0` in that order, so `runStages K` is the loop. -/
def runStages (op opt : String) (layers : List (List String))
    (edges : List (String × List (String × ℚ))) :
    Nat → DPState → Except PyError DPState
  | 0, st => .ok st
  | n + 1, st =>
    match processStage op opt layers edges n st with
    | .error e => .error e
    | .ok st2 => runStages op opt layers edges n st2

/-- The representative-path walk (`while u != goal`), with explicit fuel; the
walk always chooses the first recorded successor and fails with the
`RuntimeError` when the current node has no (or an empty) policy entry. -/
def walkPath (policy : List (String × List String)) (goal : String) :
    Nat → String → List String → Except PyError (List String)
  | 0, u, acc =>
    if u = goal then .ok acc
    else
      match dgetD policy u [] with
      | [] => .error (.runtimeError (noPathMsg u))
      | _ :: _ => .error .fuelExhausted
  | fuel + 1, u, acc =>
    if u = goal then .ok acc
    else
      match dgetD policy u [] with
      | [] => .error (.runtimeError (noPathMsg u))
      | v :: _ => walkPath policy goal fuel v (acc ++ [v])

/-- `solve_stagecoach_dp(layers, edges, start, goal, opt_mode, combine_op)`:
configuration checks, validation, backward DP pass, representative-path
walk, and result assembly (`optimal_cost = f_star[start]`, whose missing-key
`KeyError` is modelled by `PyError.keyError` and proved unreachable). -/
def solve_stagecoach_dp (layers : List (List String))
    (edges : List (String × List (String × ℚ))) (start goal : String)
    (opt_mode combine_op : String) : Except PyError StagecoachResult :=
  if ¬ (opt_mode = "min" ∨ opt_mode = "max") then .error (.valueError optModeMsg)
  else if ¬ (combine_op = "+" ∨ combine_op = "*") then .error (.valueError combineOpMsg)
  else
    match _validate_stagecoach layers edges start goal with
    | .error e => .error e
    | .ok _ =>
      let K := layers.length - 1
      let init : DPState := ⟨[(goal, identF combine_op)], [(goal, [])], []⟩
      match runStages combine_op opt_mode layers edges K init with
      | .error e => .error e
      | .ok st =>
        match walkPath st.policy goal layers.length start [start] with
        | .error e => .error e
        | .ok path =>
          match dget st.f_star start with
          | none => .error (.keyError start)
          | some c => .ok ⟨c, path, st.tables, st.f_star, st.policy⟩

/-- The depth-first enumeration of `reconstruct_all_paths`, with explicit
fuel bounding the recursion depth (the Python function recurses without a
bound; on the acyclic policies the solver produces, `layers.length` suffices,
and insufficient fuel only drops paths, never emits a wrong one). -/
def dfsPaths (policy : List (String × List String)) (goal : String) :
    Nat → String → List String → List (List String)
  | 0, u, current => if u = goal then [current] else []
  | fuel + 1, u, current =>
    if u = goal then [current]
    else (dgetD policy u []).flatMap (fun v => dfsPaths policy goal fuel v (current ++ [v]))

/-- `reconstruct_all_paths(policy, start, goal)` (fuel-bounded model). -/
def reconstruct_all_paths (policy : List (String × List String))
    (start goal : String) (fuel : Nat) : List (List String) :=
  dfsPaths policy goal fuel start [start]

/-- Independent aggregation of a path's edge weights with the configured
combine operator, seeded with the operator's identity at the final node;
`none` when some consecutive pair has no edge. -/
def pathAggF (op : String) (edges : List (String × List (String × ℚ))) :
    List String → Option F
  | [] => none
  | [_] => some (identF op)
  | u :: v :: rest =>
    match dget (dgetD edges u []) v, pathAggF op edges (v :: rest) with
    | some w, some a => some (combineF op w a)
    | _, _ => none

/-- Rational-valued sum of a path's edge weights (for `combine_op = "+"`,
`pathAggF` is `F.fin` of this). -/
def pathSum (edges : List (String × List (String × ℚ))) : List String → Option ℚ
  | [] => none
  | [_] => some 0
  | u :: v :: rest =>
    match dget (dgetD edges u []) v, pathSum edges (v :: rest) with
    | some w, some a => some (w + a)
    | _, _ => none

/-- A path is linked through the policy: every consecutive step goes to a
member of the current node's policy entry. -/
def Linked (policy : List (String × List String)) : List String → Prop
  | [] => True
  | [_] => True
  | u :: v :: rest =>
    (∃ vs, dget policy u = some vs ∧ v ∈ vs) ∧ Linked policy (v :: rest)

/-- A path whose consecutive pairs all carry an edge in the input graph. -/
def EdgePath (edges : List (String × List (String × ℚ))) : List String → Prop
  | [] => True
  | [_] => True
  | u :: v :: rest =>
    (dget (dgetD edges u []) v).isSome ∧ EdgePath edges (v :: rest)

/-- Membership in some stage of index at least `n`. -/
def memFrom (layers : List (List String)) (n : Nat) (x : String) : Prop :=
  ∃ t, n ≤ t ∧ t < layers.length ∧ x ∈ layers.getD t []

/-- The non-goal nodes of the last stage have no `f_star` binding. -/
def lastClear (layers : List (List String)) (goal : String)
    (fst : List (String × F)) : Prop :=
  ∀ v, v ∈ layers.getD (layers.length - 1) [] → v ≠ goal → dget fst v = none

/-- The goal keeps its initial bindings: identity value and empty policy. -/
def goalKept (op goal : String) (fst : List (String × F))
    (pol : List (String × List String)) : Prop :=
  dget fst goal = some (identF op) ∧ dget pol goal = some []

/-- Invariant of the DP state after the backward pass has handled all stages
of index at least `n` (it starts at `n = K` with only the goal initialised
and ends at `n = 0`). -/
structure DPInv (op opt goal : String) (layers : List (List String))
    (edges : List (String × List (String × ℚ))) (n : Nat) (st : DPState) : Prop where
  rec_eq : ∀ u vs, dget st.policy u = some vs →
    ∃ fu, dget st.f_star u = some fu ∧ fu ≠ F.nan ∧
      ∀ v ∈ vs, ∃ w, dget (dgetD edges u []) v = some w ∧
        combineF op w (dgetD st.f_star v (aggInit opt)) = fu
  keys_hi : ∀ u, (dget st.f_star u).isSome ∨ (dget st.policy u).isSome →
    u = goal ∨ memFrom layers n u
  vals_hi : ∀ u vs, dget st.policy u = some vs → ∀ v ∈ vs, memFrom layers n v
  last_clear : lastClear layers goal st.f_star
  goal_kept : goalKept op goal st.f_star st.policy
  complete : ∀ t, n ≤ t → t + 1 < layers.length → ∀ u ∈ layers.getD t [],
    ∃ vs, dget st.policy u = some vs ∧ vs ≠ [] ∧ vs ⊆ layers.getD (t + 1) []
  no_beat : ∀ t, n ≤ t → t + 1 < layers.length → ∀ u ∈ layers.getD t [],
    ∀ v ∈ layers.getD (t + 1) [], ∀ w, dget (dgetD edges u []) v = some w →
      betterF opt (combineF op w (dgetD st.f_star v (aggInit opt)))
        (dgetD st.f_star u (aggInit opt)) = false

/-- Invariant of the partial state while one stage `t` is being processed:
entry keys live in stages `t` and above (plus the goal), recorded policy
values point one stage further, the recurrence equation links every policy
entry to its `f_star` value, the non-goal last-stage nodes are unbound, and
the goal keeps its initial bindings. -/
structure MidInv (op opt goal : String) (layers : List (List String))
    (edges : List (String × List (String × ℚ))) (t : Nat)
    (fst : List (String × F)) (pol : List (String × List String)) : Prop where
  rec_eq : ∀ u vs, dget pol u = some vs →
    ∃ fu, dget fst u = some fu ∧ fu ≠ F.nan ∧
      ∀ v ∈ vs, ∃ w, dget (dgetD edges u []) v = some w ∧
        combineF op w (dgetD fst v (aggInit opt)) = fu
  keys_hi : ∀ u, (dget fst u).isSome ∨ (dget pol u).isSome →
    u = goal ∨ memFrom layers t u
  vals_hi : ∀ u vs, dget pol u = some vs → ∀ v ∈ vs, memFrom layers (t + 1) v
  last_clear : lastClear layers goal fst
  goal_kept : dget fst goal = some (identF op) ∧ dget pol goal = some []

/-- Example input of the specification (layers, §8). -/
def exLayers : List (List String) := [["S"], ["A", "B"], ["C", "D"], ["T"]]

/-- Example input of the specification (edges, §8). -/
def exEdges : List (String × List (String × ℚ)) :=
  [("S", [("A", 2), ("B", 5)]), ("A", [("C", 4), ("D", 1)]), ("B", [("C", 2)]),
   ("C", [("T", 3)]), ("D", [("T", 2)])]

/-- The result of the example run with `min`/`+`. -/
def exResMin : StagecoachResult :=
  ((solve_stagecoach_dp exLayers exEdges "S" "T" "min" "+").toOption).get (by decide)

/-- The result of the example run with `max`/`+`. -/
def exResMax : StagecoachResult :=
  ((solve_stagecoach_dp exLayers exEdges "S" "T" "max" "+").toOption).get (by decide)

/-- Two-stage graph whose last stage holds a non-goal node `X`, with the only
edge of `S` pointing at `X`: validation passes, yet the walk gets stuck. -/
def cexLayers : List (List String) := [["S"], ["T", "X"]]

/-- Edges of the stuck-walk input. -/
def cexEdges : List (String × List (String × ℚ)) := [("S", [("X", 1)])]

/-- Edges of the `combine_op = "*"`, weight-0 input: the candidate
`0.0 * inf` is NaN, so no successor is retained and the dead-end error fires. -/
def cexEdgesZero : List (String × List (String × ℚ)) := [("S", [("X", 0)])]

/-- Three-stage graph where `B` is off the representative path and its only
edge points at the non-goal last-stage node `X`: solve succeeds, `policy`
maps `B` to `[X]`, but `X` never receives an `f_star` entry. -/
def c1Layers : List (List String) := [["S"], ["A", "B"], ["T", "X"]]

/-- Edges of the dangling-policy input. -/
def c1Edges : List (String × List (String × ℚ)) :=
  [("S", [("A", 1)]), ("A", [("T", 1)]), ("B", [("X", 1)])]

/-- Graph with a stage-skipping edge `S -> T` and a node `A` without outgoing
edges: validation fails before any dead-end check can run. -/
def c4Layers : List (List String) := [["S"], ["A"], ["T"]]

/-- Edges of the skip-plus-dead-end input. -/
def c4Edges : List (String × List (String × ℚ)) := [("S", [("T", 1)])]

/-- Graph with node `B` in the middle stage having zero outgoing edges,
while validation passes: the dead-end error fires for `B`. -/
def c4wLayers : List (List String) := [["S"], ["A", "B"], ["T"]]

/-- Edges of the zero-outgoing-edge input. -/
def c4wEdges : List (String × List (String × ℚ)) :=
  [("S", [("A", 1)]), ("A", [("T", 1)])]

/-- The example edges with an additional stage-skipping edge `S -> C`. -/
def c9Edges : List (String × List (String × ℚ)) :=
  [("S", [("A", 2), ("C", 7)]), ("A", [("C", 4), ("D", 1)]), ("B", [("C", 2)]),
   ("C", [("T", 3)]), ("D", [("T", 2)])]

instance {e a : Type} [DecidableEq e] [DecidableEq a] : DecidableEq (Except e a)
  | .error x, .error y =>
    if h : x = y then .isTrue (by rw [h]) else .isFalse (by simp [h])
  | .error _, .ok _ => .isFalse (by simp)
  | .ok _, .error _ => .isFalse (by simp)
  | .ok x, .ok y =>
    if h : x = y then .isTrue (by rw [h]) else .isFalse (by simp [h])

theorem feq_eq {a b : F} (h : feq a b = true) : a = b := by
  cases a <;> cases b <;> simp_all [feq]

theorem feq_ne_nan {a b : F} (h : feq a b = true) : a ≠ F.nan := by
  cases a <;> cases b <;> simp_all [feq]

theorem feq_refl {a : F} (h : a ≠ F.nan) : feq a a = true := by
  cases a <;> simp_all [feq]

theorem flt_ne_nan_left {a b : F} (h : flt a b = true) : a ≠ F.nan := by
  cases a <;> cases b <;> simp_all [flt]

theorem flt_ne_nan_right {a b : F} (h : flt a b = true) : b ≠ F.nan := by
  cases a <;> cases b <;> simp_all [flt]

theorem flt_irrefl (a : F) : flt a a = false := by
  cases a <;> simp [flt]

theorem flt_asymm {a b : F} (h : flt a b = true) : flt b a = false := by
  cases a <;> cases b <;> simp_all [flt]
  linarith

theorem flt_trans {a b c : F} (h1 : flt a b = true) (h2 : flt b c = true) :
    flt a c = true := by
  cases a <;> cases b <;> cases c <;> simp_all [flt]
  linarith

theorem flt_total {a b : F} (ha : a ≠ F.nan) (hb : b ≠ F.nan)
    (h : flt a b = false) : a = b ∨ flt b a = true := by
  cases a <;> cases b <;> simp_all [flt]
  rcases lt_or_eq_of_le h with h1 | h1
  · exact Or.inr h1
  · exact Or.inl h1.symm

theorem flt_false_fin {x : F} {m : ℚ} (hx : x ≠ F.nan)
    (h : flt x (F.fin m) = false) : x = F.pinf ∨ ∃ s, x = F.fin s ∧ m ≤ s := by
  cases x <;> simp_all [flt]

theorem betterF_irrefl (opt : String) (a : F) : betterF opt a a = false := by
  unfold betterF; split <;> exact flt_irrefl a

theorem betterF_asymm {opt : String} {a b : F} (h : betterF opt a b = true) :
    betterF opt b a = false := by
  by_cases ho : opt = "min" <;> simp [betterF, ho] at h ⊢ <;> exact flt_asymm h

theorem betterF_trans {opt : String} {a b c : F} (h1 : betterF opt a b = true)
    (h2 : betterF opt b c = true) : betterF opt a c = true := by
  by_cases ho : opt = "min"
  · simp [betterF, ho] at h1 h2 ⊢; exact flt_trans h1 h2
  · simp [betterF, ho] at h1 h2 ⊢; exact flt_trans h2 h1

theorem betterF_ne_nan_left {opt : String} {a b : F} (h : betterF opt a b = true) :
    a ≠ F.nan := by
  unfold betterF at h
  split at h
  · exact flt_ne_nan_left h
  · exact flt_ne_nan_right h

theorem dget_mem {β : Type} {d : List (String × β)} {k : String} {b : β}
    (h : dget d k = some b) : (k, b) ∈ d := by
  induction d with
  | nil => simp [dget] at h
  | cons p rest ih =>
    obtain ⟨k0, b0⟩ := p
    unfold dget at h
    split at h
    · simp_all
    · simp [ih h]

theorem dget_isSome_of_mem {β : Type} {d : List (String × β)} {k : String} {b : β}
    (h : (k, b) ∈ d) : (dget d k).isSome := by
  induction d with
  | nil => simp at h
  | cons p rest ih =>
    obtain ⟨k0, b0⟩ := p
    rcases List.mem_cons.mp h with h0 | h0
    · cases h0; simp [dget]
    · unfold dget
      split
      · simp
      · exact ih h0

theorem addLayer_char (l : List String) : ∀ (k : Nat) (acc acc2 : List (String × Nat)),
    addLayer k l acc = .ok acc2 →
    ∀ x j, dget acc2 x = some j ↔ (dget acc x = some j ∨ (x ∈ l ∧ j = k)) := by
  induction l with
  | nil =>
    intro k acc acc2 h x j
    unfold addLayer at h
    injection h with h
    subst h
    simp
  | cons u us ih =>
    intro k acc acc2 h x j
    unfold addLayer at h
    split at h
    · cases h
    · rename_i hnone
      rw [ih _ _ _ h]
      have hn : dget acc u = none := by
        cases hd : dget acc u <;> simp_all
      by_cases hux : u = x
      · subst hux
        simp [dget, hn, List.mem_cons]
        tauto
      · simp [dget, hux, List.mem_cons]
        tauto

theorem buildStageOf_char (ls : List (List String)) :
    ∀ (k : Nat) (acc so : List (String × Nat)), buildStageOf k ls acc = .ok so →
    ∀ x j, dget so x = some j ↔
      (dget acc x = some j ∨ ∃ i, i < ls.length ∧ x ∈ ls.getD i [] ∧ j = k + i) := by
  induction ls with
  | nil =>
    intro k acc so h x j
    unfold buildStageOf at h
    injection h with h
    subst h
    simp
  | cons l ls ih =>
    intro k acc so h x j
    unfold buildStageOf at h
    split at h
    · cases h
    · rename_i acc2 hacc2
      rw [ih _ _ _ h, addLayer_char _ _ _ _ hacc2]
      constructor
      · rintro ((h0 | ⟨hmem, rfl⟩) | ⟨i, hi, hmem, rfl⟩)
        · exact Or.inl h0
        · exact Or.inr ⟨0, by simp, by simpa using hmem, by omega⟩
        · exact Or.inr ⟨i + 1, by simpa using hi, by simpa using hmem, by omega⟩
      · rintro (h0 | ⟨i, hi, hmem, rfl⟩)
        · exact Or.inl (Or.inl h0)
        · cases i with
          | zero => exact Or.inl (Or.inr ⟨by simpa using hmem, by omega⟩)
          | succ i2 =>
            exact Or.inr ⟨i2, by simpa using hi, by simpa using hmem, by omega⟩

theorem stageOf_char {layers : List (List String)} {so : List (String × Nat)}
    (h : buildStageOf 0 layers [] = .ok so) :
    ∀ x j, dget so x = some j ↔ (j < layers.length ∧ x ∈ layers.getD j []) := by
  intro x j
  rw [buildStageOf_char _ _ _ _ h]
  simp [dget]

theorem checkNbrs_ok {so : List (String × Nat)} {su : Nat} {u : String} :
    ∀ nbrs, checkNbrs so su u nbrs = .ok () →
      ∀ p ∈ nbrs, dget so p.1 = some (su + 1) := by
  intro nbrs
  induction nbrs with
  | nil => intro _ p hp; simp at hp
  | cons q rest ih =>
    obtain ⟨v, w⟩ := q
    intro h p hp
    unfold checkNbrs at h
    split at h
    · cases h
    · rename_i sv hsv
      split at h
      · cases h
      · rename_i hne
        rcases List.mem_cons.mp hp with rfl | hp2
        · rw [hsv]
          simp at hne ⊢
          omega
        · exact ih h p hp2

theorem checkEdges_ok {so : List (String × Nat)} :
    ∀ edges, checkEdges so edges = .ok () →
      ∀ p ∈ edges, ∃ su, dget so p.1 = some su ∧
        ∀ q ∈ p.2, dget so q.1 = some (su + 1) := by
  intro edges
  induction edges with
  | nil => intro _ p hp; simp at hp
  | cons e rest ih =>
    obtain ⟨u, nbrs⟩ := e
    intro h p hp
    unfold checkEdges at h
    split at h
    · cases h
    · rename_i su hsu
      split at h
      · cases h
      · rename_i hnb
        rcases List.mem_cons.mp hp with rfl | hp2
        · exact ⟨su, hsu, checkNbrs_ok _ hnb⟩
        · exact ih h p hp2

theorem validate_ok_elim {layers : List (List String)}
    {edges : List (String × List (String × ℚ))} {start goal : String}
    {so : List (String × Nat)} {fl : List String}
    (h : _validate_stagecoach layers edges start goal = .ok (so, fl)) :
    buildStageOf 0 layers [] = .ok so ∧ dget so start = some 0 ∧
    dget so goal = some (layers.length - 1) ∧ checkEdges so edges = .ok () ∧
    layers ≠ [] := by
  unfold _validate_stagecoach at h
  split at h
  · cases h
  · rename_i hlay
    push_neg at hlay
    split at h
    · cases h
    · rename_i so2 hso
      split at h
      · cases h
      · split at h
        · cases h
        · rename_i hbound
          rw [not_not] at hbound
          split at h
          · cases h
          · rename_i hed
            injection h with h
            rw [Prod.mk.injEq] at h
            obtain ⟨h1, h2⟩ := h
            subst h1
            subst h2
            exact ⟨hso, hbound.1, hbound.2, hed, hlay.1⟩

theorem aggInit_ne_nan (opt : String) : aggInit opt ≠ F.nan := by
  unfold aggInit
  split <;> simp

theorem bestGo_cons_none {op opt : String} {fst : List (String × F)}
    {nbrs : List (String × ℚ)} {v0 : String} {rest : List String} {b : F}
    {vs : List String} (h : dget nbrs v0 = none) :
    bestGo op opt fst nbrs (v0 :: rest) b vs = bestGo op opt fst nbrs rest b vs := by
  simp [bestGo, h]

theorem bestGo_cons_some {op opt : String} {fst : List (String × F)}
    {nbrs : List (String × ℚ)} {v0 : String} {rest : List String} {b : F}
    {vs : List String} {w : ℚ} (h : dget nbrs v0 = some w) :
    bestGo op opt fst nbrs (v0 :: rest) b vs =
      (if betterF opt (combineF op w (dgetD fst v0 (aggInit opt))) b = true then
        bestGo op opt fst nbrs rest (combineF op w (dgetD fst v0 (aggInit opt))) [v0]
      else if feq (combineF op w (dgetD fst v0 (aggInit opt))) b = true then
        bestGo op opt fst nbrs rest b (vs ++ [v0])
      else bestGo op opt fst nbrs rest b vs) := by
  simp [bestGo, h]

theorem bestGo_spec {op opt : String} {fst : List (String × F)}
    {nbrs : List (String × ℚ)} :
    ∀ (next : List String) (b : F) (vs : List String),
      (∀ v ∈ vs, ∃ w, dget nbrs v = some w ∧
        combineF op w (dgetD fst v (aggInit opt)) = b) →
      ∀ v ∈ (bestGo op opt fst nbrs next b vs).2,
        (v ∈ next ∨ v ∈ vs) ∧ ∃ w, dget nbrs v = some w ∧
          combineF op w (dgetD fst v (aggInit opt)) = (bestGo op opt fst nbrs next b vs).1 := by
  intro next
  induction next with
  | nil =>
    intro b vs hvs v hv
    simp only [bestGo] at hv ⊢
    exact ⟨Or.inr hv, hvs v hv⟩
  | cons v0 rest ih =>
    intro b vs hvs v hv
    cases hd : dget nbrs v0 with
    | none =>
      rw [bestGo_cons_none hd] at hv ⊢
      have := ih b vs hvs v hv
      tauto
    | some w =>
      rw [bestGo_cons_some hd] at hv ⊢
      by_cases hbet : betterF opt (combineF op w (dgetD fst v0 (aggInit opt))) b = true
      · rw [if_pos hbet] at hv ⊢
        have hres := ih (combineF op w (dgetD fst v0 (aggInit opt))) [v0]
          (by
            intro x hx
            simp at hx
            subst hx
            exact ⟨w, hd, rfl⟩) v hv
        rcases hres with ⟨hmem, hw⟩
        rcases hmem with hm | hm
        · exact ⟨Or.inl (List.mem_cons_of_mem _ hm), hw⟩
        · simp at hm
          subst hm
          exact ⟨Or.inl (by simp), hw⟩
      · rw [if_neg hbet] at hv ⊢
        by_cases hfeq : feq (combineF op w (dgetD fst v0 (aggInit opt))) b = true
        · rw [if_pos hfeq] at hv ⊢
          have hvs2 : ∀ x ∈ vs ++ [v0], ∃ w2, dget nbrs x = some w2 ∧
              combineF op w2 (dgetD fst x (aggInit opt)) = b := by
            intro x hx
            rcases List.mem_append.mp hx with hx2 | hx2
            · exact hvs x hx2
            · simp at hx2
              subst hx2
              exact ⟨w, hd, feq_eq hfeq⟩
          have hres := ih b (vs ++ [v0]) hvs2 v hv
          rcases hres with ⟨hmem, hw⟩
          rcases hmem with hm | hm
          · exact ⟨Or.inl (List.mem_cons_of_mem _ hm), hw⟩
          · rcases List.mem_append.mp hm with hm2 | hm2
            · exact ⟨Or.inr hm2, hw⟩
            · simp at hm2
              subst hm2
              exact ⟨Or.inl (by simp), hw⟩
        · rw [if_neg hfeq] at hv ⊢
          have hres := ih b vs hvs v hv
          tauto

theorem bestGo_ne_nan {op opt : String} {fst : List (String × F)}
    {nbrs : List (String × ℚ)} :
    ∀ (next : List String) (b : F) (vs : List String), (vs ≠ [] → b ≠ F.nan) →
      (bestGo op opt fst nbrs next b vs).2 ≠ [] →
      (bestGo op opt fst nbrs next b vs).1 ≠ F.nan := by
  intro next
  induction next with
  | nil =>
    intro b vs hb hne
    simp only [bestGo] at hne ⊢
    exact hb hne
  | cons v0 rest ih =>
    intro b vs hb hne
    cases hd : dget nbrs v0 with
    | none =>
      rw [bestGo_cons_none hd] at hne ⊢
      exact ih b vs hb hne
    | some w =>
      rw [bestGo_cons_some hd] at hne ⊢
      by_cases hbet : betterF opt (combineF op w (dgetD fst v0 (aggInit opt))) b = true
      · rw [if_pos hbet] at hne ⊢
        exact ih _ [v0] (fun _ => betterF_ne_nan_left hbet) hne
      · rw [if_neg hbet] at hne ⊢
        by_cases hfeq : feq (combineF op w (dgetD fst v0 (aggInit opt))) b = true
        · rw [if_pos hfeq] at hne ⊢
          exact ih b (vs ++ [v0]) (fun _ => feq_eq hfeq ▸ feq_ne_nan hfeq) hne
        · rw [if_neg hfeq] at hne ⊢
          exact ih b vs hb hne

theorem bestGo_desc {op opt : String} {fst : List (String × F)}
    {nbrs : List (String × ℚ)} :
    ∀ (next : List String) (b : F) (vs : List String),
      (bestGo op opt fst nbrs next b vs).1 = b ∨
      betterF opt (bestGo op opt fst nbrs next b vs).1 b = true := by
  intro next
  induction next with
  | nil =>
    intro b vs
    simp [bestGo]
  | cons v0 rest ih =>
    intro b vs
    cases hd : dget nbrs v0 with
    | none =>
      rw [bestGo_cons_none hd]
      exact ih b vs
    | some w =>
      rw [bestGo_cons_some hd]
      by_cases hbet : betterF opt (combineF op w (dgetD fst v0 (aggInit opt))) b = true
      · rw [if_pos hbet]
        rcases ih (combineF op w (dgetD fst v0 (aggInit opt))) [v0] with h | h
        · refine Or.inr ?_
          rw [h]
          exact hbet
        · exact Or.inr (betterF_trans h hbet)
      · rw [if_neg hbet]
        by_cases hfeq : feq (combineF op w (dgetD fst v0 (aggInit opt))) b = true
        · rw [if_pos hfeq]
          exact ih b (vs ++ [v0])
        · rw [if_neg hfeq]
          exact ih b vs

theorem bestGo_nobeat {op opt : String} {fst : List (String × F)}
    {nbrs : List (String × ℚ)} :
    ∀ (next : List String) (b : F) (vs : List String),
      ∀ v ∈ next, ∀ w, dget nbrs v = some w →
        betterF opt (combineF op w (dgetD fst v (aggInit opt)))
          (bestGo op opt fst nbrs next b vs).1 = false := by
  intro next
  induction next with
  | nil =>
    intro b vs v hv
    simp at hv
  | cons v0 rest ih =>
    intro b vs v hv w hw
    rcases List.mem_cons.mp hv with heq | hv2
    · subst heq
      rw [bestGo_cons_some hw]
      by_cases hbet : betterF opt (combineF op w (dgetD fst v (aggInit opt))) b = true
      · rw [if_pos hbet]
        rcases bestGo_desc rest (combineF op w (dgetD fst v (aggInit opt))) [v] with h | h
        · rw [h]
          exact betterF_irrefl _ _
        · exact betterF_asymm h
      · rw [if_neg hbet]
        by_cases hfeq : feq (combineF op w (dgetD fst v (aggInit opt))) b = true
        · rw [if_pos hfeq]
          rw [feq_eq hfeq]
          rcases @bestGo_desc op opt fst nbrs rest b (vs ++ [v]) with h | h
          · rw [h]
            exact betterF_irrefl _ _
          · exact betterF_asymm h
        · rw [if_neg hfeq]
          rcases @bestGo_desc op opt fst nbrs rest b vs with h | h
          · rw [h]
            exact Bool.eq_false_iff.mpr (fun hc => hbet hc)
          · cases hc : betterF opt (combineF op w (dgetD fst v (aggInit opt)))
              (bestGo op opt fst nbrs rest b vs).1
            · rfl
            · exact absurd (betterF_trans hc h) (fun h2 => hbet h2)
    · cases hd : dget nbrs v0 with
      | none =>
        rw [bestGo_cons_none hd]
        exact ih b vs v hv2 w hw
      | some w0 =>
        rw [bestGo_cons_some hd]
        by_cases hbet : betterF opt (combineF op w0 (dgetD fst v0 (aggInit opt))) b = true
        · rw [if_pos hbet]
          exact ih _ [v0] v hv2 w hw
        · rw [if_neg hbet]
          by_cases hfeq : feq (combineF op w0 (dgetD fst v0 (aggInit opt))) b = true
          · rw [if_pos hfeq]
            exact ih b (vs ++ [v0]) v hv2 w hw
          · rw [if_neg hfeq]
            exact ih b vs v hv2 w hw

theorem bestGo_empty {op opt : String} {fst : List (String × F)}
    {nbrs : List (String × ℚ)} :
    ∀ (next : List String) (b : F) (vs : List String),
      (∀ v ∈ next, dget nbrs v = none) →
      bestGo op opt fst nbrs next b vs = (b, vs) := by
  intro next
  induction next with
  | nil =>
    intro b vs _
    simp [bestGo]
  | cons v0 rest ih =>
    intro b vs h
    rw [bestGo_cons_none (h v0 (by simp))]
    exact ih b vs (fun v hv => h v (List.mem_cons_of_mem _ hv))

theorem bestGo_const {op opt : String} {fst : List (String × F)}
    {nbrs : List (String × ℚ)} :
    ∀ (next : List String) (vs : List String),
      (∀ v ∈ next, ∀ w, dget nbrs v = some w →
        combineF op w (dgetD fst v (aggInit opt)) = aggInit opt) →
      bestGo op opt fst nbrs next (aggInit opt) vs =
        (aggInit opt, vs ++ next.filter (fun v => (dget nbrs v).isSome)) := by
  intro next
  induction next with
  | nil =>
    intro vs _
    simp [bestGo]
  | cons v0 rest ih =>
    intro vs h
    cases hd : dget nbrs v0 with
    | none =>
      rw [bestGo_cons_none hd]
      rw [ih vs (fun v hv => h v (List.mem_cons_of_mem _ hv))]
      simp [List.filter_cons, hd]
    | some w =>
      rw [bestGo_cons_some hd]
      have htot : combineF op w (dgetD fst v0 (aggInit opt)) = aggInit opt :=
        h v0 (by simp) w hd
      rw [htot]
      rw [if_neg (by simp [betterF_irrefl])]
      rw [if_pos (feq_refl (aggInit_ne_nan opt))]
      rw [ih (vs ++ [v0]) (fun v hv => h v (List.mem_cons_of_mem _ hv))]
      simp [List.filter_cons, hd]

theorem char_unique {layers : List (List String)} {so : List (String × Nat)}
    (hchar : ∀ x j, dget so x = some j ↔ (j < layers.length ∧ x ∈ layers.getD j []))
    {x : String} {a b : Nat} (ha : a < layers.length) (hb : b < layers.length)
    (hxa : x ∈ layers.getD a []) (hxb : x ∈ layers.getD b []) : a = b := by
  have h1 := (hchar x a).mpr ⟨ha, hxa⟩
  have h2 := (hchar x b).mpr ⟨hb, hxb⟩
  rw [h1] at h2
  injection h2

theorem memFrom_mono {layers : List (List String)} {m n : Nat} {x : String}
    (h : m ≤ n) (hx : memFrom layers n x) : memFrom layers m x := by
  obtain ⟨t, h1, h2, h3⟩ := hx
  exact ⟨t, le_trans h h1, h2, h3⟩

theorem dget_cons {β : Type} (k : String) (b : β) (d : List (String × β))
    (key : String) : dget ((k, b) :: d) key = if k = key then some b else dget d key :=
  rfl

theorem processNodes_pres {op opt : String}
    {edges : List (String × List (String × ℚ))} {next : List String} {t : Nat} :
    ∀ (us : List String) (fst : List (String × F))
      (pol : List (String × List String)) (rows : List Row)
      (fst2 : List (String × F)) (pol2 : List (String × List String))
      (rows2 : List Row),
      processNodes op opt edges next t us fst pol rows = .ok (fst2, pol2, rows2) →
      ∀ x, x ∉ us → dget fst2 x = dget fst x ∧ dget pol2 x = dget pol x := by
  intro us
  induction us with
  | nil =>
    intro fst pol rows fst2 pol2 rows2 h x _
    simp only [processNodes] at h
    injection h with h
    rw [Prod.mk.injEq] at h
    obtain ⟨h1, h2⟩ := h
    rw [Prod.mk.injEq] at h2
    subst h1
    rw [← h2.1]
    exact ⟨rfl, rfl⟩
  | cons u rest ih =>
    intro fst pol rows fst2 pol2 rows2 h x hx
    simp only [processNodes] at h
    split at h
    · cases h
    · have hxu : x ≠ u := fun hc => hx (by rw [hc]; exact List.mem_cons_self u rest)
      have hxr : x ∉ rest := fun hc => hx (List.mem_cons_of_mem _ hc)
      have := ih _ _ _ _ _ _ h x hxr
      rw [this.1, this.2, dget_cons, dget_cons, if_neg (fun hc => hxu hc.symm),
        if_neg (fun hc => hxu hc.symm)]
      exact ⟨rfl, rfl⟩

theorem dget_cons_self {β : Type} (k : String) (b : β) (d : List (String × β)) :
    dget ((k, b) :: d) k = some b := by
  rw [dget_cons, if_pos rfl]

theorem dget_cons_ne {β : Type} {k x : String} (h : ¬ k = x) (b : β)
    (d : List (String × β)) : dget ((k, b) :: d) x = dget d x := by
  rw [dget_cons, if_neg h]

theorem dgetD_cons_ne {β : Type} {k x : String} (h : ¬ k = x) (b : β)
    (d : List (String × β)) (dflt : β) :
    dgetD ((k, b) :: d) x dflt = dgetD d x dflt := by
  unfold dgetD
  rw [dget_cons, if_neg h]

theorem bestOf_spec {op opt : String} {fst : List (String × F)}
    {nbrs : List (String × ℚ)} {next : List String} :
    ∀ v ∈ (bestOf op opt fst nbrs next).2, v ∈ next ∧ ∃ w, dget nbrs v = some w ∧
      combineF op w (dgetD fst v (aggInit opt)) = (bestOf op opt fst nbrs next).1 := by
  intro v hv
  obtain ⟨hm, hw⟩ := bestGo_spec next (aggInit opt) [] (by simp) v hv
  rcases hm with hm | hm
  · exact ⟨hm, hw⟩
  · simp at hm

theorem bestOf_ne_nan {op opt : String} {fst : List (String × F)}
    {nbrs : List (String × ℚ)} {next : List String}
    (h : (bestOf op opt fst nbrs next).2 ≠ []) :
    (bestOf op opt fst nbrs next).1 ≠ F.nan :=
  bestGo_ne_nan next (aggInit opt) [] (fun hc => absurd rfl hc) h

theorem bestOf_nobeat {op opt : String} {fst : List (String × F)}
    {nbrs : List (String × ℚ)} {next : List String} :
    ∀ v ∈ next, ∀ w, dget nbrs v = some w →
      betterF opt (combineF op w (dgetD fst v (aggInit opt)))
        (bestOf op opt fst nbrs next).1 = false :=
  fun v hv w hw => bestGo_nobeat next (aggInit opt) [] v hv w hw

theorem bestOf_empty {op opt : String} {fst : List (String × F)}
    {nbrs : List (String × ℚ)} {next : List String}
    (h : ∀ v ∈ next, dget nbrs v = none) :
    bestOf op opt fst nbrs next = (aggInit opt, []) := by
  unfold bestOf
  rw [bestGo_empty next _ [] h]

theorem bestOf_const {op opt : String} {fst : List (String × F)}
    {nbrs : List (String × ℚ)} {next : List String}
    (h : ∀ v ∈ next, ∀ w, dget nbrs v = some w →
      combineF op w (dgetD fst v (aggInit opt)) = aggInit opt) :
    bestOf op opt fst nbrs next =
      (aggInit opt, next.filter (fun v => (dget nbrs v).isSome)) := by
  unfold bestOf
  rw [bestGo_const next [] h]
  simp

theorem midInv_step {op opt goal : String} {layers : List (List String)}
    {edges : List (String × List (String × ℚ))} {so : List (String × Nat)} {t : Nat}
    (hchar : ∀ x j, dget so x = some j ↔ (j < layers.length ∧ x ∈ layers.getD j []))
    (htK : t + 1 < layers.length)
    (hgoalmem : goal ∈ layers.getD (layers.length - 1) [])
    {u : String} (hut : u ∈ layers.getD t [])
    {fst : List (String × F)} {pol : List (String × List String)}
    (hmid : MidInv op opt goal layers edges t fst pol)
    (hne : ¬ (bestOf op opt fst (dgetD edges u []) (layers.getD (t + 1) [])).2 = []) :
    MidInv op opt goal layers edges t
      ((u, (bestOf op opt fst (dgetD edges u []) (layers.getD (t + 1) [])).1) :: fst)
      ((u, (bestOf op opt fst (dgetD edges u []) (layers.getD (t + 1) [])).2) :: pol) := by
  have ht : t < layers.length := Nat.lt_of_succ_lt htK
  have hnotu_next : ∀ v, v ∈ layers.getD (t + 1) [] → ¬ v = u := by
    intro v hv hc
    subst hc
    exact absurd (char_unique hchar htK ht hv hut) (by omega)
  have hnotu_memFrom : ∀ v, memFrom layers (t + 1) v → ¬ v = u := by
    intro v hv hc
    subst hc
    obtain ⟨j, hj1, hj2, hj3⟩ := hv
    exact absurd (char_unique hchar hj2 ht hj3 hut) (by omega)
  have hu_ne_goal : ¬ goal = u := by
    intro hc
    subst hc
    exact absurd (char_unique hchar (by omega) ht hgoalmem hut) (by omega)
  have hnotu_last : ∀ v, v ∈ layers.getD (layers.length - 1) [] → ¬ v = u := by
    intro v hv hc
    subst hc
    exact absurd (char_unique hchar (by omega) ht hv hut) (by omega)
  constructor
  · intro x vs hx
    rw [dget_cons] at hx
    by_cases hxu : u = x
    · rw [if_pos hxu] at hx
      injection hx with hx
      subst hxu
      refine ⟨(bestOf op opt fst (dgetD edges u []) (layers.getD (t + 1) [])).1,
        by rw [dget_cons_self], bestOf_ne_nan hne, ?_⟩
      subst hx
      intro v hv
      obtain ⟨hvnext, w, hw, hcomb⟩ := bestOf_spec v hv
      refine ⟨w, hw, ?_⟩
      rw [dgetD_cons_ne (fun hc => (hnotu_next v hvnext) hc.symm)]
      exact hcomb
    · rw [if_neg hxu] at hx
      obtain ⟨fu, hfu, hnan, hmem⟩ := hmid.rec_eq x vs hx
      refine ⟨fu, by rw [dget_cons_ne hxu]; exact hfu, hnan, ?_⟩
      intro v hv
      obtain ⟨w, hw, hcomb⟩ := hmem v hv
      have hvm := hmid.vals_hi x vs hx v hv
      refine ⟨w, hw, ?_⟩
      rw [dgetD_cons_ne (fun hc => (hnotu_memFrom v hvm) hc.symm)]
      exact hcomb
  · intro x hx
    by_cases hxu : u = x
    · exact Or.inr ⟨t, Nat.le_refl t, ht, hxu ▸ hut⟩
    · refine hmid.keys_hi x ?_
      rcases hx with hx | hx
      · rw [dget_cons_ne hxu] at hx
        exact Or.inl hx
      · rw [dget_cons_ne hxu] at hx
        exact Or.inr hx
  · intro x vs hx v hv
    rw [dget_cons] at hx
    by_cases hxu : u = x
    · rw [if_pos hxu] at hx
      injection hx with hx
      subst hx
      obtain ⟨hvnext, _⟩ := bestOf_spec v hv
      exact ⟨t + 1, Nat.le_refl _, htK, hvnext⟩
    · rw [if_neg hxu] at hx
      exact hmid.vals_hi x vs hx v hv
  · intro v hv hvg
    rw [dget_cons_ne (fun hc => (hnotu_last v hv) hc.symm)]
    exact hmid.last_clear v hv hvg
  · exact ⟨by rw [dget_cons_ne (fun hc => hu_ne_goal hc.symm)]; exact hmid.goal_kept.1,
      by rw [dget_cons_ne (fun hc => hu_ne_goal hc.symm)]; exact hmid.goal_kept.2⟩

theorem processNodes_inv {op opt goal : String} {layers : List (List String)}
    {edges : List (String × List (String × ℚ))} {so : List (String × Nat)} {t : Nat}
    (hchar : ∀ x j, dget so x = some j ↔ (j < layers.length ∧ x ∈ layers.getD j []))
    (htK : t + 1 < layers.length)
    (hgoalmem : goal ∈ layers.getD (layers.length - 1) []) :
    ∀ (us : List String) (fst : List (String × F)) (pol : List (String × List String))
      (rows : List Row) (fst2 : List (String × F)) (pol2 : List (String × List String))
      (rows2 : List Row),
      (∀ x ∈ us, x ∈ layers.getD t []) →
      MidInv op opt goal layers edges t fst pol →
      processNodes op opt edges (layers.getD (t + 1) []) t us fst pol rows =
        .ok (fst2, pol2, rows2) →
      MidInv op opt goal layers edges t fst2 pol2 ∧
      ∀ u ∈ us, ∃ fstMid,
        lastClear layers goal fstMid ∧
        dget fstMid goal = some (identF op) ∧
        (∀ v, memFrom layers (t + 1) v → dget fstMid v = dget fst2 v) ∧
        dget fst2 u = some (bestOf op opt fstMid (dgetD edges u []) (layers.getD (t + 1) [])).1 ∧
        dget pol2 u = some (bestOf op opt fstMid (dgetD edges u []) (layers.getD (t + 1) [])).2 ∧
        (bestOf op opt fstMid (dgetD edges u []) (layers.getD (t + 1) [])).2 ≠ [] := by
  intro us
  induction us with
  | nil =>
    intro fst pol rows fst2 pol2 rows2 hus hmid h
    simp only [processNodes] at h
    injection h with h
    rw [Prod.mk.injEq] at h
    obtain ⟨h1, h2⟩ := h
    rw [Prod.mk.injEq] at h2
    subst h1
    obtain ⟨h2, _⟩ := h2
    subst h2
    exact ⟨hmid, by simp⟩
  | cons u rest ih =>
    intro fst pol rows fst2 pol2 rows2 hus hmid h
    simp only [processNodes] at h
    split at h
    · cases h
    · rename_i hne
      have ht : t < layers.length := Nat.lt_of_succ_lt htK
      have hut : u ∈ layers.getD t [] := hus u (List.mem_cons_self u rest)
      have hnotu_next : ∀ v, v ∈ layers.getD (t + 1) [] → ¬ v = u := by
        intro v hv hc
        subst hc
        exact absurd (char_unique hchar htK ht hv hut) (by omega)
      have hnotu_memFrom : ∀ v, memFrom layers (t + 1) v → ¬ v = u := by
        intro v hv hc
        subst hc
        obtain ⟨j, hj1, hj2, hj3⟩ := hv
        exact absurd (char_unique hchar hj2 ht hj3 hut) (by omega)
      have hu_ne_goal : ¬ goal = u := by
        intro hc
        subst hc
        exact absurd (char_unique hchar (by omega) ht hgoalmem hut) (by omega)
      have hnotu_last : ∀ v, v ∈ layers.getD (layers.length - 1) [] → ¬ v = u := by
        intro v hv hc
        subst hc
        exact absurd (char_unique hchar (by omega) ht hv hut) (by omega)
      have hmid1 := midInv_step hchar htK hgoalmem hut hmid hne
      obtain ⟨hpost, hI⟩ := ih _ _ _ _ _ _
        (fun x hx => hus x (List.mem_cons_of_mem _ hx)) hmid1 h
      refine ⟨hpost, ?_⟩
      intro x hx
      rcases List.mem_cons.mp hx with heq | hxr
      · subst heq
        by_cases hur : x ∈ rest
        · exact hI x hur
        · have hpres := processNodes_pres _ _ _ _ _ _ _ h
          refine ⟨fst, hmid.last_clear, hmid.goal_kept.1, ?_, ?_, ?_, hne⟩
          · intro v hv
            have hvne : v ∉ rest := by
              intro hc
              obtain ⟨j, hj1, hj2, hj3⟩ := hv
              have hvt := hus v (List.mem_cons_of_mem _ hc)
              exact absurd (char_unique hchar hj2 ht hj3 hvt) (by omega)
            rw [(hpres v hvne).1, dget_cons_ne (fun hc => (hnotu_memFrom v hv) hc.symm)]
          · rw [(hpres x hur).1, dget_cons_self]
          · rw [(hpres x hur).2, dget_cons_self]
      · exact hI x hxr

theorem processNodes_err {op opt goal : String} {layers : List (List String)}
    {edges : List (String × List (String × ℚ))} {so : List (String × Nat)} {t : Nat}
    (hchar : ∀ x j, dget so x = some j ↔ (j < layers.length ∧ x ∈ layers.getD j []))
    (htK : t + 1 < layers.length)
    (hgoalmem : goal ∈ layers.getD (layers.length - 1) []) :
    ∀ (us : List String) (fst : List (String × F)) (pol : List (String × List String))
      (rows : List Row) (e : PyError),
      (∀ x ∈ us, x ∈ layers.getD t []) →
      MidInv op opt goal layers edges t fst pol →
      processNodes op opt edges (layers.getD (t + 1) []) t us fst pol rows = .error e →
      ∃ u ∈ us, ∃ fstMid,
        lastClear layers goal fstMid ∧
        dget fstMid goal = some (identF op) ∧
        e = .valueError (deadEndMsg u (t + 1)) ∧
        (bestOf op opt fstMid (dgetD edges u []) (layers.getD (t + 1) [])).2 = [] := by
  intro us
  induction us with
  | nil =>
    intro fst pol rows e _ _ h
    simp only [processNodes] at h
    cases h
  | cons u rest ih =>
    intro fst pol rows e hus hmid h
    simp only [processNodes] at h
    split at h
    · rename_i hemp
      injection h with h
      exact ⟨u, List.mem_cons_self u rest, fst, hmid.last_clear, hmid.goal_kept.1,
        by rw [← h], hemp⟩
    · rename_i hne
      have hut : u ∈ layers.getD t [] := hus u (List.mem_cons_self u rest)
      have hmid1 := midInv_step hchar htK hgoalmem hut hmid hne
      obtain ⟨u2, hu2, fstMid, hlc, hgk, he, hbe⟩ :=
        ih _ _ _ _ (fun x hx => hus x (List.mem_cons_of_mem _ hx)) hmid1 h
      exact ⟨u2, List.mem_cons_of_mem _ hu2, fstMid, hlc, hgk, he, hbe⟩

theorem processStage_step {op opt goal : String} {layers : List (List String)}
    {edges : List (String × List (String × ℚ))} {so : List (String × Nat)}
    (hchar : ∀ x j, dget so x = some j ↔ (j < layers.length ∧ x ∈ layers.getD j []))
    (hgoalmem : goal ∈ layers.getD (layers.length - 1) [])
    {n : Nat} {st st1 : DPState} (hn : n + 2 ≤ layers.length)
    (hinv : DPInv op opt goal layers edges (n + 1) st)
    (h : processStage op opt layers edges n st = .ok st1) :
    DPInv op opt goal layers edges n st1 ∧
    (∀ x, x ∉ layers.getD n [] →
      dget st1.f_star x = dget st.f_star x ∧ dget st1.policy x = dget st.policy x) ∧
    st1.tables.map (fun r => r.stage) = st.tables.map (fun r => r.stage) ++ [n] ∧
    (∀ u ∈ layers.getD n [], ∃ fstMid,
      lastClear layers goal fstMid ∧
      dget fstMid goal = some (identF op) ∧
      (∀ v, memFrom layers (n + 1) v → dget fstMid v = dget st1.f_star v) ∧
      dget st1.f_star u =
        some (bestOf op opt fstMid (dgetD edges u []) (layers.getD (n + 1) [])).1 ∧
      dget st1.policy u =
        some (bestOf op opt fstMid (dgetD edges u []) (layers.getD (n + 1) [])).2 ∧
      (bestOf op opt fstMid (dgetD edges u []) (layers.getD (n + 1) [])).2 ≠ []) := by
  have htK : n + 1 < layers.length := by omega
  simp only [processStage] at h
  split at h
  · cases h
  · rename_i fst2 pol2 rows2 hpn
    injection h with h
    subst h
    have hmidpre : MidInv op opt goal layers edges n st.f_star st.policy := by
      constructor
      · exact hinv.rec_eq
      · intro x hx
        rcases hinv.keys_hi x hx with h1 | h1
        · exact Or.inl h1
        · exact Or.inr (memFrom_mono (Nat.le_succ n) h1)
      · exact hinv.vals_hi
      · exact hinv.last_clear
      · exact hinv.goal_kept
    obtain ⟨hpost, hI⟩ := processNodes_inv hchar htK hgoalmem _ _ _ _ _ _ _
      (fun x hx => hx) hmidpre hpn
    have hpres := processNodes_pres _ _ _ _ _ _ _ hpn
    refine ⟨?_, ?_, by simp, hI⟩
    · constructor
      · exact hpost.rec_eq
      · exact hpost.keys_hi
      · exact fun u vs hu v hv => memFrom_mono (Nat.le_succ n) (hpost.vals_hi u vs hu v hv)
      · exact hpost.last_clear
      · exact hpost.goal_kept
      · intro t2 hge hlt u hu
        rcases Nat.eq_or_lt_of_le hge with heq | hgt
        · subst heq
          obtain ⟨fstMid, _, _, hmeq, hfst, hpol, hnem⟩ := hI u hu
          exact ⟨_, hpol, hnem, fun v hv => (bestOf_spec v hv).1⟩
        · obtain ⟨vs, hvs, hne2, hsub⟩ := hinv.complete t2 hgt hlt u hu
          have hxnot : u ∉ layers.getD n [] := by
            intro hc
            exact absurd (char_unique hchar (by omega) (by omega) hu hc) (by omega)
          rw [(hpres u hxnot).2]
          exact ⟨vs, hvs, hne2, hsub⟩
      · intro t2 hge hlt u hu v hv w hw
        rcases Nat.eq_or_lt_of_le hge with heq | hgt
        · subst heq
          obtain ⟨fstMid, hlc, hgk, hmeq, hfst, hpol, hnem⟩ := hI u hu
          have hb := @bestOf_nobeat op opt fstMid (dgetD edges u [])
            (layers.getD (n + 1) []) v hv w hw
          rw [show dgetD fstMid v (aggInit opt) = dgetD fst2 v (aggInit opt) by
            unfold dgetD
            rw [hmeq v ⟨n + 1, Nat.le_refl _, hlt, hv⟩]] at hb
          show betterF opt _ (dgetD fst2 u (aggInit opt)) = false
          rw [show dgetD fst2 u (aggInit opt) =
            (bestOf op opt fstMid (dgetD edges u []) (layers.getD (n + 1) [])).1 by
            unfold dgetD
            rw [hfst]
            rfl]
          exact hb
        · have hxnot : u ∉ layers.getD n [] := by
            intro hc
            exact absurd (char_unique hchar (by omega) (by omega) hu hc) (by omega)
          have hvnot : v ∉ layers.getD n [] := by
            intro hc
            exact absurd (char_unique hchar (by omega) (by omega) hv hc) (by omega)
          have hprev := hinv.no_beat t2 hgt hlt u hu v hv w hw
          unfold dgetD at hprev ⊢
          rw [(hpres u hxnot).1, (hpres v hvnot).1]
          exact hprev
    · exact hpres

theorem dpinv_mid {op opt goal : String} {layers : List (List String)}
    {edges : List (String × List (String × ℚ))} {n : Nat} {st : DPState}
    (hinv : DPInv op opt goal layers edges (n + 1) st) :
    MidInv op opt goal layers edges n st.f_star st.policy := by
  constructor
  · exact hinv.rec_eq
  · intro x hx
    rcases hinv.keys_hi x hx with h1 | h1
    · exact Or.inl h1
    · exact Or.inr (memFrom_mono (Nat.le_succ n) h1)
  · exact hinv.vals_hi
  · exact hinv.last_clear
  · exact hinv.goal_kept

theorem processStage_pres {op opt : String} {layers : List (List String)}
    {edges : List (String × List (String × ℚ))} {n : Nat} {st st1 : DPState}
    (h : processStage op opt layers edges n st = .ok st1) :
    ∀ x, x ∉ layers.getD n [] →
      dget st1.f_star x = dget st.f_star x ∧ dget st1.policy x = dget st.policy x := by
  simp only [processStage] at h
  split at h
  · cases h
  · rename_i fst2 pol2 rows2 hpn
    injection h with h
    subst h
    exact processNodes_pres _ _ _ _ _ _ _ hpn

theorem processStage_stage_list {op opt : String} {layers : List (List String)}
    {edges : List (String × List (String × ℚ))} {n : Nat} {st st1 : DPState}
    (h : processStage op opt layers edges n st = .ok st1) :
    st1.tables.map (fun r => r.stage) = st.tables.map (fun r => r.stage) ++ [n] := by
  simp only [processStage] at h
  split at h
  · cases h
  · rename_i fst2 pol2 rows2 hpn
    injection h with h
    subst h
    simp

theorem runStages_ok {op opt goal : String} {layers : List (List String)}
    {edges : List (String × List (String × ℚ))} {so : List (String × Nat)}
    (hchar : ∀ x j, dget so x = some j ↔ (j < layers.length ∧ x ∈ layers.getD j []))
    (hgoalmem : goal ∈ layers.getD (layers.length - 1) []) :
    ∀ (n : Nat) (st st2 : DPState), n + 1 ≤ layers.length →
      DPInv op opt goal layers edges n st →
      runStages op opt layers edges n st = .ok st2 →
      DPInv op opt goal layers edges 0 st2 := by
  intro n
  induction n with
  | zero =>
    intro st st2 _ hinv h
    simp only [runStages] at h
    injection h with h
    subst h
    exact hinv
  | succ n ih =>
    intro st st2 hn hinv h
    simp only [runStages] at h
    split at h
    · cases h
    · rename_i st1 hstep
      obtain ⟨hinv1, _, _, _⟩ := processStage_step hchar hgoalmem (by omega) hinv hstep
      exact ih st1 st2 (by omega) hinv1 h

theorem runStages_pres {op opt : String} {layers : List (List String)}
    {edges : List (String × List (String × ℚ))} :
    ∀ (n : Nat) (st st2 : DPState),
      runStages op opt layers edges n st = .ok st2 →
      ∀ x, (∀ t2, t2 < n → x ∉ layers.getD t2 []) →
        dget st2.f_star x = dget st.f_star x ∧ dget st2.policy x = dget st.policy x := by
  intro n
  induction n with
  | zero =>
    intro st st2 h x _
    simp only [runStages] at h
    injection h with h
    subst h
    exact ⟨rfl, rfl⟩
  | succ n ih =>
    intro st st2 h x hx
    simp only [runStages] at h
    split at h
    · cases h
    · rename_i st1 hstep
      have h1 := processStage_pres hstep x (hx n (Nat.lt_succ_self n))
      have h2 := ih st1 st2 h x (fun t2 ht2 => hx t2 (Nat.lt_succ_of_lt ht2))
      rw [h2.1, h2.2, h1.1, h1.2]
      exact ⟨rfl, rfl⟩

theorem runStages_stage_list {op opt : String} {layers : List (List String)}
    {edges : List (String × List (String × ℚ))} :
    ∀ (n : Nat) (st st2 : DPState),
      runStages op opt layers edges n st = .ok st2 →
      st2.tables.map (fun r => r.stage) =
        st.tables.map (fun r => r.stage) ++ (List.range n).reverse := by
  intro n
  induction n with
  | zero =>
    intro st st2 h
    simp only [runStages] at h
    injection h with h
    subst h
    simp
  | succ n ih =>
    intro st st2 h
    simp only [runStages] at h
    split at h
    · cases h
    · rename_i st1 hstep
      rw [ih st1 st2 h, processStage_stage_list hstep, List.range_succ]
      simp

theorem runStages_err {op opt goal : String} {layers : List (List String)}
    {edges : List (String × List (String × ℚ))} {so : List (String × Nat)}
    (hchar : ∀ x j, dget so x = some j ↔ (j < layers.length ∧ x ∈ layers.getD j []))
    (hgoalmem : goal ∈ layers.getD (layers.length - 1) []) :
    ∀ (n : Nat) (st : DPState) (e : PyError), n + 1 ≤ layers.length →
      DPInv op opt goal layers edges n st →
      runStages op opt layers edges n st = .error e →
      ∃ t2, t2 < n ∧ t2 + 1 < layers.length ∧ ∃ u ∈ layers.getD t2 [], ∃ fstMid,
        lastClear layers goal fstMid ∧
        dget fstMid goal = some (identF op) ∧
        e = .valueError (deadEndMsg u (t2 + 1)) ∧
        (bestOf op opt fstMid (dgetD edges u []) (layers.getD (t2 + 1) [])).2 = [] := by
  intro n
  induction n with
  | zero =>
    intro st e _ _ h
    simp only [runStages] at h
    cases h
  | succ n ih =>
    intro st e hn hinv h
    simp only [runStages] at h
    split at h
    · rename_i e0 hstep
      injection h with h
      subst h
      simp only [processStage] at hstep
      split at hstep
      · rename_i e1 hpn
        injection hstep with hstep
        subst hstep
        obtain ⟨u, hu, fstMid, hlc, hgk, he, hbe⟩ := processNodes_err hchar (by omega)
          hgoalmem _ _ _ _ _ (fun x hx => hx) (dpinv_mid hinv) hpn
        exact ⟨n, Nat.lt_succ_self n, by omega, u, hu, fstMid, hlc, hgk, he, hbe⟩
      · cases hstep
    · rename_i st1 hstep
      obtain ⟨hinv1, _, _, _⟩ := processStage_step hchar hgoalmem (by omega) hinv hstep
      obtain ⟨t2, ht2, hlt, rest⟩ := ih st1 e (by omega) hinv1 h
      exact ⟨t2, Nat.lt_succ_of_lt ht2, hlt, rest⟩

theorem identF_ne_nan (op : String) : identF op ≠ F.nan := by
  unfold identF
  split <;> simp

theorem init_dpinv {op opt goal : String} {layers : List (List String)}
    {edges : List (String × List (String × ℚ))} :
    DPInv op opt goal layers edges (layers.length - 1)
      ⟨[(goal, identF op)], [(goal, [])], []⟩ := by
  constructor
  · intro x vs hx
    rw [dget_cons] at hx
    by_cases hxg : goal = x
    · rw [if_pos hxg] at hx
      injection hx with hx
      subst hxg
      subst hx
      exact ⟨identF op, by rw [dget_cons_self], identF_ne_nan op, by simp⟩
    · rw [if_neg hxg] at hx
      simp [dget] at hx
  · intro x hx
    by_cases hxg : goal = x
    · exact Or.inl hxg.symm
    · rcases hx with hx | hx
      · rw [dget_cons_ne hxg] at hx
        simp [dget] at hx
      · rw [dget_cons_ne hxg] at hx
        simp [dget] at hx
  · intro x vs hx v hv
    rw [dget_cons] at hx
    by_cases hxg : goal = x
    · rw [if_pos hxg] at hx
      injection hx with hx
      subst hx
      simp at hv
    · rw [if_neg hxg] at hx
      simp [dget] at hx
  · intro v hv hvg
    rw [dget_cons_ne (fun hc => hvg hc.symm)]
    rfl
  · exact ⟨by rw [dget_cons_self], by rw [dget_cons_self]⟩
  · intro t2 h1 h2 u hu
    exfalso
    omega
  · intro t2 h1 h2 u hu v hv w hw
    exfalso
    omega

theorem validate_facts {layers : List (List String)}
    {edges : List (String × List (String × ℚ))} {start goal : String}
    {so : List (String × Nat)} {fl : List String}
    (h : _validate_stagecoach layers edges start goal = .ok (so, fl)) :
    (∀ x j, dget so x = some j ↔ (j < layers.length ∧ x ∈ layers.getD j [])) ∧
    1 ≤ layers.length ∧
    start ∈ layers.getD 0 [] ∧
    goal ∈ layers.getD (layers.length - 1) [] ∧
    checkEdges so edges = .ok () := by
  obtain ⟨hso, hstart, hgoal, hed, hne⟩ := validate_ok_elim h
  have hchar := stageOf_char hso
  have hlen : 1 ≤ layers.length := by
    cases layers with
    | nil => exact absurd rfl hne
    | cons a b => simp
  exact ⟨hchar, hlen, ((hchar start 0).mp hstart).2,
    ((hchar goal (layers.length - 1)).mp hgoal).2, hed⟩

theorem validate_edge_target {layers : List (List String)}
    {edges : List (String × List (String × ℚ))} {start goal : String}
    {so : List (String × Nat)} {fl : List String}
    (h : _validate_stagecoach layers edges start goal = .ok (so, fl))
    {t : Nat} {u v : String} {w : ℚ} (ht : t < layers.length)
    (hu : u ∈ layers.getD t []) (hw : dget (dgetD edges u []) v = some w) :
    t + 1 < layers.length ∧ v ∈ layers.getD (t + 1) [] := by
  obtain ⟨hchar, hlen, _, _, hed⟩ := validate_facts h
  cases hd : dget edges u with
  | none =>
    rw [dgetD, hd] at hw
    simp [dget] at hw
  | some nbrs =>
    rw [dgetD, hd] at hw
    simp only [Option.getD_some] at hw
    obtain ⟨su, hsu, hall⟩ := checkEdges_ok _ hed _ (dget_mem hd)
    have hv := hall _ (dget_mem hw)
    have hut : dget so u = some t := (hchar u t).mpr ⟨ht, hu⟩
    rw [hut] at hsu
    injection hsu with hsu
    subst hsu
    exact (hchar v (t + 1)).mp hv

theorem solve_eq_pipeline {layers : List (List String)}
    {edges : List (String × List (String × ℚ))} {start goal opt op : String}
    (hopt : opt = "min" ∨ opt = "max") (hop : op = "+" ∨ op = "*")
    {so : List (String × Nat)} {fl : List String}
    (hval : _validate_stagecoach layers edges start goal = .ok (so, fl)) :
    solve_stagecoach_dp layers edges start goal opt op =
      (match runStages op opt layers edges (layers.length - 1)
          ⟨[(goal, identF op)], [(goal, [])], []⟩ with
      | .error e => .error e
      | .ok st =>
        match walkPath st.policy goal layers.length start [start] with
        | .error e => .error e
        | .ok path =>
          match dget st.f_star start with
          | none => .error (.keyError start)
          | some c => .ok ⟨c, path, st.tables, st.f_star, st.policy⟩) := by
  unfold solve_stagecoach_dp
  rw [if_neg (not_not_intro hopt), if_neg (not_not_intro hop), hval]

theorem walkPath_linked {policy : List (String × List String)} {goal : String} :
    ∀ (fuel : Nat) (u : String) (acc res : List String),
      walkPath policy goal fuel u acc = .ok res →
      ∃ suff, res = acc ++ suff ∧ Linked policy (u :: suff) ∧
        (u :: suff).getLast? = some goal := by
  intro fuel
  induction fuel with
  | zero =>
    intro u acc res h
    simp only [walkPath] at h
    split at h
    · injection h with h
      subst h
      rename_i hg
      exact ⟨[], by simp, trivial, by simp [hg]⟩
    · split at h <;> cases h
  | succ fuel ih =>
    intro u acc res h
    simp only [walkPath] at h
    split at h
    · injection h with h
      subst h
      rename_i hg
      exact ⟨[], by simp, trivial, by simp [hg]⟩
    · rename_i hg
      split at h
      · cases h
      · rename_i v l hvl
        obtain ⟨suff2, hres, hlink, hlast⟩ := ih v (acc ++ [v]) res h
        refine ⟨v :: suff2, by simp [hres], ?_, by simpa using hlast⟩
        refine ⟨?_, hlink⟩
        cases hd : dget policy u with
        | none =>
          rw [dgetD, hd] at hvl
          simp at hvl
        | some vs =>
          rw [dgetD, hd] at hvl
          simp only [Option.getD_some] at hvl
          exact ⟨vs, rfl, by rw [hvl]; exact List.mem_cons_self v l⟩

theorem walk_reaches {op opt goal : String} {layers : List (List String)}
    {edges : List (String × List (String × ℚ))} {st : DPState}
    (hinv : DPInv op opt goal layers edges 0 st)
    (hlast : ∀ v ∈ layers.getD (layers.length - 1) [], v = goal) :
    ∀ (fuel t : Nat) (u : String) (acc : List String),
      u ∈ layers.getD t [] → t < layers.length → layers.length - 1 - t ≤ fuel →
      ∃ res, walkPath st.policy goal fuel u acc = .ok res := by
  intro fuel
  induction fuel with
  | zero =>
    intro t u acc hu ht hb
    have : u = goal := hlast u (by
      have : t = layers.length - 1 := by omega
      rw [← this]
      exact hu)
    subst this
    exact ⟨acc, by simp [walkPath]⟩
  | succ fuel ih =>
    intro t u acc hu ht hb
    by_cases hg : u = goal
    · subst hg
      exact ⟨acc, by simp [walkPath]⟩
    · have htlt : t < layers.length - 1 := by
        rcases Nat.lt_or_ge t (layers.length - 1) with h1 | h1
        · exact h1
        · exact absurd (hlast u (by
            have : t = layers.length - 1 := by omega
            rw [← this]
            exact hu)) hg
      obtain ⟨vs, hvs, hvne, hsub⟩ := hinv.complete t (Nat.zero_le t) (by omega) u hu
      cases vs with
      | nil => exact absurd rfl hvne
      | cons v0 vrest =>
        obtain ⟨res, hres⟩ := ih (t + 1) v0 (acc ++ [v0])
          (hsub (List.mem_cons_self v0 vrest)) (by omega) (by omega)
        refine ⟨res, ?_⟩
        simp only [walkPath, if_neg hg]
        rw [show dgetD st.policy u [] = v0 :: vrest by rw [dgetD, hvs]; rfl]
        exact hres

theorem walk_outcome {op opt goal : String} {layers : List (List String)}
    {edges : List (String × List (String × ℚ))} {st : DPState}
    (hinv : DPInv op opt goal layers edges 0 st) :
    ∀ (fuel t : Nat) (u : String) (acc : List String),
      u ∈ layers.getD t [] → t < layers.length → layers.length - 1 - t ≤ fuel →
      (∃ res, walkPath st.policy goal fuel u acc = .ok res) ∨
      (∃ x, walkPath st.policy goal fuel u acc = .error (.runtimeError (noPathMsg x))) := by
  have hstuck : ∀ u, u ∈ layers.getD (layers.length - 1) [] → ¬ u = goal →
      dgetD st.policy u [] = [] := by
    intro u hu hg
    cases hd : dget st.policy u with
    | none => rw [dgetD, hd]; rfl
    | some vs =>
      obtain ⟨fu, hfu, _, _⟩ := hinv.rec_eq u vs hd
      rw [hinv.last_clear u hu hg] at hfu
      cases hfu
  intro fuel
  induction fuel with
  | zero =>
    intro t u acc hu ht hb
    by_cases hg : u = goal
    · subst hg
      exact Or.inl ⟨acc, by simp [walkPath]⟩
    · have hm : u ∈ layers.getD (layers.length - 1) [] := by
        have : t = layers.length - 1 := by omega
        rw [← this]
        exact hu
      refine Or.inr ⟨u, ?_⟩
      simp only [walkPath, if_neg hg]
      rw [hstuck u hm hg]
  | succ fuel ih =>
    intro t u acc hu ht hb
    by_cases hg : u = goal
    · subst hg
      exact Or.inl ⟨acc, by simp [walkPath]⟩
    · by_cases htlast : t = layers.length - 1
      · refine Or.inr ⟨u, ?_⟩
        simp only [walkPath, if_neg hg]
        rw [hstuck u (htlast ▸ hu) hg]
      · have htlt : t + 1 < layers.length := by omega
        obtain ⟨vs, hvs, hvne, hsub⟩ := hinv.complete t (Nat.zero_le t) htlt u hu
        cases vs with
        | nil => exact absurd rfl hvne
        | cons v0 vrest =>
          have hstep : walkPath st.policy goal (fuel + 1) u acc =
              walkPath st.policy goal fuel v0 (acc ++ [v0]) := by
            simp only [walkPath, if_neg hg]
            rw [show dgetD st.policy u [] = v0 :: vrest by rw [dgetD, hvs]; rfl]
          rw [hstep]
          exact ih (t + 1) v0 (acc ++ [v0]) (hsub (List.mem_cons_self v0 vrest))
            (by omega) (by omega)

theorem linked_agg {op opt goal : String} {layers : List (List String)}
    {edges : List (String × List (String × ℚ))} {st : DPState}
    (hinv : DPInv op opt goal layers edges 0 st) :
    ∀ (suff : List String) (u : String), Linked st.policy (u :: suff) →
      (u :: suff).getLast? = some goal →
      ∃ fu, dget st.f_star u = some fu ∧ pathAggF op edges (u :: suff) = some fu := by
  intro suff
  induction suff with
  | nil =>
    intro u _ hlast
    simp at hlast
    subst hlast
    exact ⟨identF op, hinv.goal_kept.1, rfl⟩
  | cons v suff2 ih =>
    intro u hlink hlast
    obtain ⟨⟨vs, hvs, hvmem⟩, hlink2⟩ := hlink
    obtain ⟨fv, hfv, hagg⟩ := ih v hlink2 (by simpa using hlast)
    obtain ⟨fu, hfu, hnan, hmem⟩ := hinv.rec_eq u vs hvs
    obtain ⟨w, hw, hcomb⟩ := hmem v hvmem
    refine ⟨fu, hfu, ?_⟩
    simp only [pathAggF]
    rw [hw, hagg]
    rw [show dgetD st.f_star v (aggInit opt) = fv by rw [dgetD, hfv]; rfl] at hcomb
    dsimp only
    rw [hcomb]

theorem dfsPaths_spec {policy : List (String × List String)} {goal : String} :
    ∀ (fuel : Nat) (u : String) (current p : List String),
      p ∈ dfsPaths policy goal fuel u current →
      ∃ suff, p = current ++ suff ∧ Linked policy (u :: suff) ∧
        (u :: suff).getLast? = some goal := by
  intro fuel
  induction fuel with
  | zero =>
    intro u current p hp
    simp only [dfsPaths] at hp
    split at hp
    · rename_i hg
      simp at hp
      subst hp
      exact ⟨[], by simp, trivial, by simp [hg]⟩
    · simp at hp
  | succ fuel ih =>
    intro u current p hp
    simp only [dfsPaths] at hp
    split at hp
    · rename_i hg
      simp at hp
      subst hp
      exact ⟨[], by simp, trivial, by simp [hg]⟩
    · rename_i hg
      rw [List.mem_flatMap] at hp
      obtain ⟨v, hv, hp2⟩ := hp
      obtain ⟨suff2, hres, hlink, hlast⟩ := ih v (current ++ [v]) p hp2
      refine ⟨v :: suff2, by simp [hres], ⟨?_, hlink⟩, by simpa using hlast⟩
      cases hd : dget policy u with
      | none =>
        rw [dgetD, hd] at hv
        simp at hv
      | some vs =>
        rw [dgetD, hd] at hv
        simp only [Option.getD_some] at hv
        exact ⟨vs, rfl, hv⟩

theorem linked_edgepath {op opt goal : String} {layers : List (List String)}
    {edges : List (String × List (String × ℚ))} {st : DPState}
    (hinv : DPInv op opt goal layers edges 0 st) :
    ∀ (suff : List String) (u : String), Linked st.policy (u :: suff) →
      EdgePath edges (u :: suff) := by
  intro suff
  induction suff with
  | nil =>
    intro u _
    trivial
  | cons v suff2 ih =>
    intro u hlink
    obtain ⟨⟨vs, hvs, hvmem⟩, hlink2⟩ := hlink
    obtain ⟨fu, _, _, hmem⟩ := hinv.rec_eq u vs hvs
    obtain ⟨w, hw, _⟩ := hmem v hvmem
    exact ⟨by rw [hw]; rfl, ih v hlink2⟩

theorem pathAggF_plus {edges : List (String × List (String × ℚ))} :
    ∀ p, pathAggF "+" edges p = (pathSum edges p).map F.fin := by
  intro p
  induction p with
  | nil => rfl
  | cons u tail ih =>
    cases tail with
    | nil => rfl
    | cons v rest =>
      simp only [pathAggF, pathSum]
      cases hd : dget (dgetD edges u []) v with
      | none => simp
      | some w =>
        rw [ih] at *
        cases hs : pathSum edges (v :: rest) with
        | none => simp [pathAggF, hs]
        | some q =>
          simp only [pathAggF, hs, Option.map_some]
          rfl

theorem combineF_plus_fin (w q : ℚ) : combineF "+" w (F.fin q) = F.fin (w + q) := rfl

theorem combineF_plus_pinf (w : ℚ) : combineF "+" w F.pinf = F.pinf := rfl

theorem combineF_plus_agg (opt : String) (w : ℚ) :
    combineF "+" w (aggInit opt) = aggInit opt := by
  unfold aggInit
  split <;> rfl

theorem flt_pinf_false {x : F} (hx : x ≠ F.nan) (h : flt x F.pinf = false) :
    x = F.pinf := by
  cases x <;> simp_all [flt]

theorem betterF_max_eq (a b : F) : betterF "max" a b = flt b a := rfl

theorem identF_plus : identF "+" = F.fin 0 := rfl

theorem solve_ok_full {layers : List (List String)}
    {edges : List (String × List (String × ℚ))} {start goal opt op : String}
    {res : StagecoachResult}
    (h : solve_stagecoach_dp layers edges start goal opt op = .ok res) :
    ∃ so fl st,
      (opt = "min" ∨ opt = "max") ∧ (op = "+" ∨ op = "*") ∧
      _validate_stagecoach layers edges start goal = .ok (so, fl) ∧
      runStages op opt layers edges (layers.length - 1)
        ⟨[(goal, identF op)], [(goal, [])], []⟩ = .ok st ∧
      DPInv op opt goal layers edges 0 st ∧
      walkPath st.policy goal layers.length start [start] = .ok res.path ∧
      dget st.f_star start = some res.optimal_cost ∧
      res.tables = st.tables ∧ res.f_star = st.f_star ∧ res.policy = st.policy := by
  simp only [solve_stagecoach_dp] at h
  split at h
  · cases h
  · rename_i hopt
    rw [not_not] at hopt
    split at h
    · cases h
    · rename_i hop
      rw [not_not] at hop
      split at h
      · cases h
      · rename_i p hval
        obtain ⟨so, fl⟩ := p
        split at h
        · cases h
        · rename_i st hrun
          obtain ⟨hchar, hlen, hstartm, hgoalm, _⟩ := validate_facts hval
          have hinv := runStages_ok hchar hgoalm (layers.length - 1) _ st (by omega)
            init_dpinv hrun
          split at h
          · cases h
          · rename_i path hwalk
            split at h
            · cases h
            · rename_i c hc
              injection h with h
              subst h
              exact ⟨so, fl, st, hopt, hop, hval, hrun, hinv, hwalk, hc, rfl, rfl, rfl⟩

/-- C6: for the example input (layers `[["S"],["A","B"],["C","D"],["T"]]`,
edges `S->A:2, S->B:5, A->C:4, A->D:1, B->C:2, C->T:3, D->T:2`), solving with
start `"S"`, goal `"T"`, `opt_mode "min"`, `combine_op "+"` returns
`optimal_cost = 5` (the model computes in exact rationals, `5.0` in floats)
and representative path `["S", "A", "D", "T"]`. -/
theorem C6_example_solution :
    (solve_stagecoach_dp exLayers exEdges "S" "T" "min" "+").toOption.map
      (fun r => (r.optimal_cost, r.path)) = some (F.fin 5, ["S", "A", "D", "T"]) := by
  decide

/-- C7: after every successful solve, `f_star[goal]` is the identity of the
combine operator (`0` for `"+"`, `1` for `"*"`) and `policy[goal]` is the
empty list. -/
theorem C7_goal_identity {layers : List (List String)}
    {edges : List (String × List (String × ℚ))} {start goal opt op : String}
    {res : StagecoachResult}
    (h : solve_stagecoach_dp layers edges start goal opt op = .ok res) :
    (op = "+" → dget res.f_star goal = some (F.fin 0)) ∧
    (op = "*" → dget res.f_star goal = some (F.fin 1)) ∧
    dget res.policy goal = some [] := by
  obtain ⟨so, fl, st, hopt, hop, hval, hrun, hinv, hwalk, hc, ht, hf, hpol⟩ :=
    solve_ok_full h
  rw [hf, hpol]
  refine ⟨fun hplus => ?_, fun hmul => ?_, hinv.goal_kept.2⟩
  · have h2 := hinv.goal_kept.1
    rw [hplus] at h2
    exact h2
  · have h2 := hinv.goal_kept.1
    rw [hmul] at h2
    exact h2

/-- C7 witness: the theorem applied to the example run. -/
theorem C7_goal_identity_witness :
    ("+" = "+" → dget exResMin.f_star "T" = some (F.fin 0)) ∧
    ("+" = "*" → dget exResMin.f_star "T" = some (F.fin 1)) ∧
    dget exResMin.policy "T" = some [] :=
  @C7_goal_identity exLayers exEdges "S" "T" "min" "+" exResMin (by rfl)

/-- C1 counterexample: on layers `[["S"],["A","B"],["T","X"]]` with edges
`S->A:1, A->T:1, B->X:1`, solve succeeds, `policy["B"] = ["X"]`, yet `X`
never receives an `f_star` entry, so the claimed equation
`combine(weight(B,X), f_star[X]) == f_star[B]` has no value `f_star[X]` to
hold of: the claim as stated is false for this Result. -/
theorem C1_counterexample :
    (solve_stagecoach_dp c1Layers c1Edges "S" "T" "min" "+").toOption.map
      (fun r => (dget r.policy "B", dget r.f_star "X")) =
      some (some ["X"], none) := by
  decide

/-- C1 amended: for every Result returned by solve, every `v` in `policy[u]`
satisfies `combine(weight(u,v), f_star.get(v, sentinel)) == f_star[u]`
exactly, where a missing `f_star[v]` defaults to the sentinel
(`+inf` for min, `-inf` for max) exactly as the code computes it. -/
theorem C1_policy_recurrence {layers : List (List String)}
    {edges : List (String × List (String × ℚ))} {start goal opt op : String}
    {res : StagecoachResult}
    (h : solve_stagecoach_dp layers edges start goal opt op = .ok res) :
    ∀ u vs, dget res.policy u = some vs → ∀ v ∈ vs,
      ∃ w fu, dget (dgetD edges u []) v = some w ∧ dget res.f_star u = some fu ∧
        feq (combineF op w (dgetD res.f_star v (aggInit opt))) fu = true := by
  obtain ⟨so, fl, st, hopt, hop, hval, hrun, hinv, hwalk, hc, ht, hf, hpol⟩ :=
    solve_ok_full h
  rw [hf, hpol]
  intro u vs hvs v hv
  obtain ⟨fu, hfu, hnan, hmem⟩ := hinv.rec_eq u vs hvs
  obtain ⟨w, hw, hcomb⟩ := hmem v hv
  refine ⟨w, fu, hw, hfu, ?_⟩
  rw [hcomb]
  exact feq_refl hnan

/-- C1 witness: the amended theorem applied to the example run at
`u = "S"`, `v = "A"`. -/
theorem C1_policy_recurrence_witness :
    ∃ w fu, dget (dgetD exEdges "S" []) "A" = some w ∧
      dget exResMin.f_star "S" = some fu ∧
      feq (combineF "+" w (dgetD exResMin.f_star "A" (aggInit "min"))) fu = true :=
  @C1_policy_recurrence exLayers exEdges "S" "T" "min" "+" exResMin (by rfl)
    "S" ["A"] (by decide) "A" (by decide)

/-- C2 counterexample: on the example input the `tables` list of the Result
is in backward stage order, the table of transition 2 first and the table of
transition 0 last, not in forward order. -/
theorem C2_counterexample :
    (solve_stagecoach_dp exLayers exEdges "S" "T" "min" "+").toOption.map
      (fun r => r.tables.map (fun tb => tb.stage)) = some [2, 1, 0] ∧
    (solve_stagecoach_dp exLayers exEdges "S" "T" "min" "+").toOption.map
      (fun r => r.tables.map (fun tb => tb.stage)) ≠ some [0, 1, 2] := by
  constructor
  · decide
  · decide

/-- C2 amended: the `tables` list of every successful solve is exposed in
the order the stages were processed, backward: the table for transition
`K-1` first, down to the table for transition `0` last. -/
theorem C2_tables_backward {layers : List (List String)}
    {edges : List (String × List (String × ℚ))} {start goal opt op : String}
    {res : StagecoachResult}
    (h : solve_stagecoach_dp layers edges start goal opt op = .ok res) :
    res.tables.map (fun tb => tb.stage) = (List.range (layers.length - 1)).reverse := by
  obtain ⟨so, fl, st, hopt, hop, hval, hrun, hinv, hwalk, hc, ht, hf, hpol⟩ :=
    solve_ok_full h
  rw [ht]
  have h2 := runStages_stage_list _ _ _ hrun
  simpa using h2

/-- C2 witness: the amended theorem applied to the example run. -/
theorem C2_tables_backward_witness :
    exResMin.tables.map (fun tb => tb.stage) =
      (List.range (exLayers.length - 1)).reverse :=
  @C2_tables_backward exLayers exEdges "S" "T" "min" "+" exResMin (by rfl)

/-- C5: every path produced by `reconstruct_all_paths` from a successful
solve's policy (for any recursion fuel) starts at `start`, ends at `goal`,
and independently aggregating its edge weights with the configured combine
operator, seeded with the operator's identity, yields exactly the Result's
`optimal_cost`. -/
theorem C5_all_paths {layers : List (List String)}
    {edges : List (String × List (String × ℚ))} {start goal opt op : String}
    {res : StagecoachResult} {fuel : Nat}
    (h : solve_stagecoach_dp layers edges start goal opt op = .ok res) :
    ∀ p ∈ reconstruct_all_paths res.policy start goal fuel,
      p.head? = some start ∧ p.getLast? = some goal ∧
      pathAggF op edges p = some res.optimal_cost := by
  obtain ⟨so, fl, st, hopt, hop, hval, hrun, hinv, hwalk, hc, ht, hf, hpol⟩ :=
    solve_ok_full h
  intro p hp
  rw [hpol] at hp
  unfold reconstruct_all_paths at hp
  obtain ⟨suff, hpe, hlink, hlast⟩ := dfsPaths_spec fuel start [start] p hp
  obtain ⟨fu, hfu, hagg⟩ := linked_agg hinv suff start hlink hlast
  rw [hc] at hfu
  injection hfu with hfu
  subst hpe
  refine ⟨by simp, by simpa using hlast, ?_⟩
  rw [show ([start] ++ suff) = start :: suff from rfl, hagg, hfu]

/-- C5 witness: the theorem applied to the example run with fuel 10 and the
single optimal path. -/
theorem C5_all_paths_witness :
    (["S", "A", "D", "T"] : List String).head? = some "S" ∧
    (["S", "A", "D", "T"] : List String).getLast? = some "T" ∧
    pathAggF "+" exEdges ["S", "A", "D", "T"] = some exResMin.optimal_cost :=
  @C5_all_paths exLayers exEdges "S" "T" "min" "+" exResMin 10 (by rfl)
    ["S", "A", "D", "T"] (by decide)

/-- C4 counterexample: on layers `[["S"],["A"],["T"]]` with the single edge
`S->T:1`, node `A` sits in a non-terminal stage with zero outgoing edges,
yet solve fails with the structural edge-direction error, not with a
dead-end error naming `A`: the claim's "for every input graph" is too wide. -/
theorem C4_counterexample :
    solve_stagecoach_dp c4Layers c4Edges "S" "T" "min" "+" =
      .error (.valueError (edgeMsg "S" "T")) ∧
    solve_stagecoach_dp c4Layers c4Edges "S" "T" "min" "+" ≠
      .error (.valueError (deadEndMsg "A" 2)) := by
  constructor
  · decide
  · decide

/-- C4 amended: for every input graph passing validation, with recognized
`opt_mode` and `combine_op`, if a node in a non-terminal stage has zero
outgoing edges then solve fails with the dead-end `ValueError` naming a node
of some non-terminal stage together with that stage (1-based successor
index), exactly the frontier node whose scan retained zero valid
successors. -/
theorem C4_dead_end {layers : List (List String)}
    {edges : List (String × List (String × ℚ))} {start goal opt op : String}
    {so : List (String × Nat)} {fl : List String} {t : Nat} {u : String}
    (hval : _validate_stagecoach layers edges start goal = .ok (so, fl))
    (hopt : opt = "min" ∨ opt = "max") (hop : op = "+" ∨ op = "*")
    (ht : t + 1 < layers.length) (hu : u ∈ layers.getD t [])
    (hedges : dgetD edges u [] = []) :
    ∃ t2 u2, t2 + 1 < layers.length ∧ u2 ∈ layers.getD t2 [] ∧
      solve_stagecoach_dp layers edges start goal opt op =
        .error (.valueError (deadEndMsg u2 (t2 + 1))) := by
  rw [solve_eq_pipeline hopt hop hval]
  obtain ⟨hchar, hlen, hstartm, hgoalm, _⟩ := validate_facts hval
  cases hrun : runStages op opt layers edges (layers.length - 1)
      ⟨[(goal, identF op)], [(goal, [])], []⟩ with
  | error e =>
    obtain ⟨t2, ht2, hlt, u2, hu2, fstMid, _, _, he, _⟩ :=
      runStages_err hchar hgoalm _ _ _ (by omega) init_dpinv hrun
    subst he
    exact ⟨t2, u2, hlt, hu2, rfl⟩
  | ok st =>
    exfalso
    have hinv := runStages_ok hchar hgoalm _ _ _ (by omega) init_dpinv hrun
    obtain ⟨vs, hvs, hvne, hsub⟩ := hinv.complete t (Nat.zero_le t) ht u hu
    obtain ⟨fu, _, _, hmem⟩ := hinv.rec_eq u vs hvs
    cases vs with
    | nil => exact hvne rfl
    | cons v0 vrest =>
      obtain ⟨w, hw, _⟩ := hmem v0 (List.mem_cons_self v0 vrest)
      rw [hedges] at hw
      simp [dget] at hw

/-- C4 witness: the amended theorem applied to a validated graph whose node
`B` (stage 1) has zero outgoing edges. -/
theorem C4_dead_end_witness :
    ∃ t2 u2, t2 + 1 < c4wLayers.length ∧ u2 ∈ c4wLayers.getD t2 [] ∧
      solve_stagecoach_dp c4wLayers c4wEdges "S" "T" "min" "+" =
        .error (.valueError (deadEndMsg u2 (t2 + 1))) :=
  @C4_dead_end c4wLayers c4wEdges "S" "T" "min" "+"
    [("T", 2), ("B", 1), ("A", 1), ("S", 0)] ["S", "A", "B", "T"] 1 "B"
    (by rfl) (Or.inl rfl) (Or.inl rfl) (by decide) (by decide) (by rfl)

theorem checkNbrs_all_ok {so : List (String × Nat)} {su : Nat} {u : String} :
    ∀ nbrs, (∀ q ∈ nbrs, dget so q.1 = some (su + 1)) →
      checkNbrs so su u nbrs = .ok () := by
  intro nbrs
  induction nbrs with
  | nil => intro _; rfl
  | cons q rest ih =>
    obtain ⟨v, w⟩ := q
    intro hall
    have hv := hall (v, w) (List.mem_cons_self _ _)
    simp only [checkNbrs]
    rw [hv]
    dsimp only
    rw [if_neg (by simp : ¬ su + 1 ≠ su + 1)]
    exact ih (fun q hq => hall q (List.mem_cons_of_mem _ hq))

theorem checkNbrs_err {so : List (String × Nat)} {su : Nat} {u v : String}
    {w : ℚ} {sv : Nat} (hv : dget so v = some sv) (hbad : sv ≠ su + 1) :
    ∀ npre npost, (∀ q ∈ npre, dget so q.1 = some (su + 1)) →
      checkNbrs so su u (npre ++ (v, w) :: npost) =
        .error (.valueError (edgeMsg u v)) := by
  intro npre
  induction npre with
  | nil =>
    intro npost _
    simp only [List.nil_append, checkNbrs]
    rw [hv]
    simp only [if_pos hbad]
  | cons q rest ih =>
    obtain ⟨v2, w2⟩ := q
    intro npost hall
    have hv2 := hall (v2, w2) (List.mem_cons_self _ _)
    simp only [List.cons_append, checkNbrs]
    rw [hv2]
    dsimp only
    rw [if_neg (by simp : ¬ su + 1 ≠ su + 1)]
    exact ih npost (fun q hq => hall q (List.mem_cons_of_mem _ hq))

theorem checkEdges_append_ok {so : List (String × Nat)} :
    ∀ pre rest, (∀ p ∈ pre, ∃ s2, dget so p.1 = some s2 ∧
      ∀ q ∈ p.2, dget so q.1 = some (s2 + 1)) →
      checkEdges so (pre ++ rest) = checkEdges so rest := by
  intro pre
  induction pre with
  | nil => intro rest _; rfl
  | cons p pre2 ih =>
    obtain ⟨x, nb⟩ := p
    intro rest hall
    obtain ⟨sx, hsx, hnb⟩ := hall (x, nb) (List.mem_cons_self _ _)
    simp only [List.cons_append, checkEdges]
    rw [hsx]
    dsimp only
    rw [checkNbrs_all_ok nb hnb]
    exact ih rest (fun p hp => hall p (List.mem_cons_of_mem _ hp))

/-- C9: for every input whose validation reaches the edge checks (layers
well-formed, no duplicate node, start and goal at the boundary stages) and
whose edge iteration first meets the offending edge `u -> v` with the
destination stage different from the source stage plus one, `validate` fails
with the structural `ValueError` naming that edge, and `solve` produces no
Result for any `opt_mode`/`combine_op`. -/
theorem C9_skip_edge {layers : List (List String)}
    {edges pre post : List (String × List (String × ℚ))}
    {nbrs npre npost : List (String × ℚ)}
    {start goal u v : String} {w : ℚ} {so : List (String × Nat)} {su sv : Nat}
    (hlay : ¬ (layers = [] ∨ ∃ l ∈ layers, l = []))
    (hso : buildStageOf 0 layers [] = .ok so)
    (hstart : dget so start = some 0)
    (hgoal : dget so goal = some (layers.length - 1))
    (hsplit : edges = pre ++ (u, nbrs) :: post)
    (hpre : ∀ p ∈ pre, ∃ s2, dget so p.1 = some s2 ∧
      ∀ q ∈ p.2, dget so q.1 = some (s2 + 1))
    (hsu : dget so u = some su)
    (hnsplit : nbrs = npre ++ (v, w) :: npost)
    (hnpre : ∀ q ∈ npre, dget so q.1 = some (su + 1))
    (hsv : dget so v = some sv) (hbad : sv ≠ su + 1) :
    _validate_stagecoach layers edges start goal =
      .error (.valueError (edgeMsg u v)) ∧
    ∀ opt op, (solve_stagecoach_dp layers edges start goal opt op).toOption = none := by
  have hce : checkEdges so edges = .error (.valueError (edgeMsg u v)) := by
    rw [hsplit, checkEdges_append_ok pre _ hpre]
    simp only [checkEdges]
    rw [hsu]
    dsimp only
    rw [hnsplit, checkNbrs_err hsv hbad npre npost hnpre]
  have hverr : _validate_stagecoach layers edges start goal =
      .error (.valueError (edgeMsg u v)) := by
    unfold _validate_stagecoach
    rw [if_neg hlay, hso]
    dsimp only
    rw [if_neg (by simp [hstart, hgoal]), if_neg (not_not_intro ⟨hstart, hgoal⟩)]
    rw [hce]
  refine ⟨hverr, ?_⟩
  intro opt op
  unfold solve_stagecoach_dp
  split
  · rfl
  · split
    · rfl
    · rw [hverr]
      rfl

/-- C9 witness: the theorem applied to the example graph extended with the
stage-skipping edge `S -> C`. -/
theorem C9_skip_edge_witness :
    _validate_stagecoach exLayers c9Edges "S" "T" =
      .error (.valueError (edgeMsg "S" "C")) :=
  (@C9_skip_edge exLayers c9Edges []
    [("A", [("C", 4), ("D", 1)]), ("B", [("C", 2)]), ("C", [("T", 3)]), ("D", [("T", 2)])]
    [("A", 2), ("C", 7)] [("A", 2)] [] "S" "T" "S" "C" 7
    [("T", 3), ("D", 2), ("C", 2), ("B", 1), ("A", 1), ("S", 0)] 0 2
    (by decide) (by decide) (by decide) (by decide) rfl (by simp)
    (by decide) rfl (by decide) (by decide) (by decide)).1

/-- C3 counterexample: on layers `[["S"],["T","X"]]` with the single edge
`S->X:1`, validation passes and the only non-terminal node `S` has an
outgoing edge, yet the representative walk dead-ends at the non-goal
last-stage node `X` and solve raises the `RuntimeError`: the claim's
hypotheses do not rule the NoPathError out. -/
theorem C3_counterexample :
    _validate_stagecoach cexLayers cexEdges "S" "T" =
      .ok ([("X", 1), ("T", 1), ("S", 0)], ["S", "T", "X"]) ∧
    dgetD cexEdges "S" [] ≠ [] ∧
    solve_stagecoach_dp cexLayers cexEdges "S" "T" "min" "+" =
      .error (.runtimeError (noPathMsg "X")) := by
  refine ⟨by decide, by decide, by decide⟩

/-- C3 amended: if validation passes, every node of a non-terminal stage has
at least one outgoing edge, and the final stage consists of the goal node
only, then solve never fails with the reconstruction `RuntimeError` (nor any
other non-`ValueError`): every failure it can still produce is a
`ValueError`. -/
theorem C3_no_path_error {layers : List (List String)}
    {edges : List (String × List (String × ℚ))} {start goal opt op : String}
    {so : List (String × Nat)} {fl : List String}
    (hval : _validate_stagecoach layers edges start goal = .ok (so, fl))
    (hout : ∀ t < layers.length - 1, ∀ u ∈ layers.getD t [], dgetD edges u [] ≠ [])
    (hlastonly : layers.getD (layers.length - 1) [] = [goal]) :
    ∀ e, solve_stagecoach_dp layers edges start goal opt op = .error e →
      ∃ m, e = .valueError m := by
  intro e he
  obtain ⟨hchar, hlen, hstartm, hgoalm, _⟩ := validate_facts hval
  have hlast2 : ∀ v ∈ layers.getD (layers.length - 1) [], v = goal := by
    intro v hv
    rw [hlastonly] at hv
    simpa using hv
  simp only [solve_stagecoach_dp] at he
  split at he
  · injection he with he2
    exact ⟨optModeMsg, he2.symm⟩
  · split at he
    · injection he with he2
      exact ⟨combineOpMsg, he2.symm⟩
    · split at he
      · rename_i e2 hv2
        rw [hval] at hv2
        cases hv2
      · rename_i p hv2
        rw [hval] at hv2
        injection hv2 with hv2
        split at he
        · rename_i e2 hrun
          obtain ⟨t2, ht2, hlt, u2, hu2, fstMid, _, _, hesh, _⟩ :=
            runStages_err hchar hgoalm _ _ _ (by omega) init_dpinv hrun
          injection he with he2
          subst he2
          exact ⟨deadEndMsg u2 (t2 + 1), hesh⟩
        · rename_i st hrun
          have hinv := runStages_ok hchar hgoalm _ _ _ (by omega) init_dpinv hrun
          split at he
          · rename_i e2 hwalk
            obtain ⟨res, hres⟩ := walk_reaches hinv hlast2 layers.length 0 start
              [start] hstartm (by omega) (by omega)
            rw [hres] at hwalk
            cases hwalk
          · rename_i path hwalk
            split at he
            · rename_i hnone
              exfalso
              by_cases hsg : start = goal
              · subst hsg
                rw [hinv.goal_kept.1] at hnone
                cases hnone
              · have hlen2 : 1 < layers.length := by
                  rcases Nat.lt_or_ge 1 layers.length with h1 | h1
                  · exact h1
                  · exfalso
                    have h0 : layers.length - 1 = 0 := by omega
                    rw [h0] at hlastonly
                    rw [hlastonly] at hstartm
                    simp at hstartm
                    exact hsg hstartm
                obtain ⟨vs, hvs, _, _⟩ := hinv.complete 0 (Nat.le_refl 0)
                  (by omega) start hstartm
                obtain ⟨fu, hfu, _, _⟩ := hinv.rec_eq start vs hvs
                rw [hfu] at hnone
                cases hnone
            · cases he

/-- C3 witness: the amended theorem applied to the example input, whose
final stage is exactly `["T"]`; the first conjunct records the discharged
validation hypothesis. -/
theorem C3_no_path_error_witness :
    _validate_stagecoach exLayers exEdges "S" "T" =
      .ok ([("T", 3), ("D", 2), ("C", 2), ("B", 1), ("A", 1), ("S", 0)],
        ["S", "A", "B", "C", "D", "T"]) ∧
    (∀ e, solve_stagecoach_dp exLayers exEdges "S" "T" "min" "+" = .error e →
      ∃ m, e = .valueError m) :=
  ⟨by decide, @C3_no_path_error exLayers exEdges "S" "T" "min" "+"
    [("T", 3), ("D", 2), ("C", 2), ("B", 1), ("A", 1), ("S", 0)]
    ["S", "A", "B", "C", "D", "T"] (by decide) (by decide) (by decide)⟩

/-- C10 counterexample: with `combine_op = "*"` and the single edge
`S->X:0` into the non-goal last-stage node `X`, the candidate is
`0.0 * inf = NaN`, which is neither an improvement nor a tie, so no
successor is retained and solve DOES raise the dead-end error naming `u = S`
— the claim's "solve does not raise any error for u / the candidate equals
the sentinel and is recorded as a tie" is false as stated. -/
theorem C10_counterexample :
    solve_stagecoach_dp cexLayers cexEdgesZero "S" "T" "min" "*" =
      .error (.valueError (deadEndMsg "S" 1)) := by
  decide

/-- C10 amended: restricted to `combine_op = "+"` (where
`combine(w, sentinel) = sentinel` always holds), the claim is true: if the
last stage contains non-goal nodes and `u` in the preceding stage has at
least one edge, all of whose targets are non-goal (last-stage) nodes, then
no dead-end error is ever raised for `u` (any dead-end failure names a
different node, and the only other possible failure is the reconstruction
RuntimeError), and when the backward pass completes, `f_star[u]` is the
sentinel (`+inf` for min, `-inf` for max), every edge target of `u` is
recorded in `policy[u]` as a tie, and no such target ever receives an
`f_star` entry of its own. -/
theorem C10_dangling_sentinel {layers : List (List String)}
    {edges : List (String × List (String × ℚ))} {start goal opt u : String}
    {so : List (String × Nat)} {fl : List String}
    (hval : _validate_stagecoach layers edges start goal = .ok (so, fl))
    (hopt : opt = "min" ∨ opt = "max")
    (hK : 2 ≤ layers.length)
    (hu : u ∈ layers.getD (layers.length - 2) [])
    (hne : dgetD edges u [] ≠ [])
    (htargets : ∀ q ∈ dgetD edges u [], ¬ q.1 = goal) :
    (∀ e, solve_stagecoach_dp layers edges start goal opt "+" = .error e →
      (∃ t2 u2, u2 ∈ layers.getD t2 [] ∧ ¬ u2 = u ∧
        e = .valueError (deadEndMsg u2 (t2 + 1))) ∨
      (∃ x, e = .runtimeError (noPathMsg x))) ∧
    (∀ st, runStages "+" opt layers edges (layers.length - 1)
        ⟨[(goal, identF "+")], [(goal, [])], []⟩ = .ok st →
      dget st.f_star u = some (aggInit opt) ∧
      (∃ vs, dget st.policy u = some vs ∧ ∀ q ∈ dgetD edges u [], q.1 ∈ vs) ∧
      (∀ q ∈ dgetD edges u [], dget st.f_star q.1 = none)) := by
  obtain ⟨hchar, hlen, hstartm, hgoalm, _⟩ := validate_facts hval
  have e1 : layers.length - 2 + 1 = layers.length - 1 := by omega
  have hfilter_mem : ∀ q ∈ dgetD edges u [],
      q.1 ∈ (layers.getD (layers.length - 1) []).filter
        (fun v => (dget (dgetD edges u []) v).isSome) := by
    intro q hq
    cases hget : dget (dgetD edges u []) q.1 with
    | none =>
      have hs := dget_isSome_of_mem hq
      rw [hget] at hs
      cases hs
    | some w2 =>
      obtain ⟨_, hmem⟩ := validate_edge_target hval (t := layers.length - 2)
        (by omega) hu hget
      rw [e1] at hmem
      exact List.mem_filter.mpr ⟨hmem, by rw [hget]; rfl⟩
  have hconst : ∀ fstMid, lastClear layers goal fstMid →
      bestOf "+" opt fstMid (dgetD edges u []) (layers.getD (layers.length - 1) []) =
      (aggInit opt, (layers.getD (layers.length - 1) []).filter
        (fun v => (dget (dgetD edges u []) v).isSome)) := by
    intro fstMid hlc
    apply bestOf_const
    intro v hv w2 hw2
    have hvne : ¬ v = goal := htargets (v, w2) (dget_mem hw2)
    rw [dgetD, hlc v hv hvne]
    simp only [Option.getD_none]
    exact combineF_plus_agg opt w2
  have hfilter_ne : (layers.getD (layers.length - 1) []).filter
      (fun v => (dget (dgetD edges u []) v).isSome) ≠ [] := by
    obtain ⟨q0, hq0⟩ := List.exists_mem_of_ne_nil _ hne
    exact List.ne_nil_of_mem (hfilter_mem q0 hq0)
  constructor
  · intro e he
    simp only [solve_stagecoach_dp] at he
    rw [if_neg (not_not_intro hopt), if_neg (by simp), hval] at he
    dsimp only at he
    split at he
    · rename_i e2 hrun
      obtain ⟨t2, ht2, hlt, u2, hu2, fstMid, hlc, hgk, hesh, hbe⟩ :=
        runStages_err hchar hgoalm _ _ _ (by omega) init_dpinv hrun
      injection he with he2
      subst he2
      by_cases hequ : u2 = u
      · exfalso
        subst hequ
        have ht2eq : t2 = layers.length - 2 :=
          char_unique hchar (by omega) (by omega) hu2 hu
        subst ht2eq
        rw [e1] at hbe
        rw [hconst fstMid hlc] at hbe
        exact hfilter_ne hbe
      · exact Or.inl ⟨t2, u2, hu2, hequ, hesh⟩
    · rename_i st hrun
      have hinv := runStages_ok hchar hgoalm _ _ _ (by omega) init_dpinv hrun
      split at he
      · rename_i e2 hwalk
        rcases walk_outcome hinv layers.length 0 start [start] hstartm (by omega)
          (by omega) with ⟨res, hres⟩ | ⟨x, hx⟩
        · rw [hres] at hwalk
          cases hwalk
        · rw [hx] at hwalk
          injection hwalk with hwalk
          injection he with he2
          subst he2
          exact Or.inr ⟨x, hwalk.symm⟩
      · rename_i path hwalk
        split at he
        · rename_i hnone
          exfalso
          obtain ⟨vs, hvs, _, _⟩ := hinv.complete 0 (Nat.le_refl 0) (by omega)
            start hstartm
          obtain ⟨fu, hfu, _, _⟩ := hinv.rec_eq start vs hvs
          rw [hfu] at hnone
          cases hnone
        · cases he
  · intro st hrun
    rw [show layers.length - 1 = layers.length - 2 + 1 from e1.symm] at hrun
    simp only [runStages] at hrun
    split at hrun
    · cases hrun
    · rename_i st1 hstep
      have hinit : DPInv "+" opt goal layers edges (layers.length - 2 + 1)
          ⟨[(goal, identF "+")], [(goal, [])], []⟩ := by
        rw [e1]
        exact init_dpinv
      obtain ⟨hinv1, hpres1, _, hI⟩ := processStage_step hchar hgoalm (by omega)
        hinit hstep
      obtain ⟨fstMid, hlc, hgk, hmeq, hfst, hpol, hnem⟩ := hI u hu
      rw [e1] at hfst hpol
      rw [hconst fstMid hlc] at hfst hpol
      have hinvfin := runStages_ok hchar hgoalm _ _ _ (by omega) hinv1 hrun
      have hupres : ∀ t2, t2 < layers.length - 2 → u ∉ layers.getD t2 [] := by
        intro t2 ht2 hc
        exact absurd (char_unique hchar (by omega) (by omega) hc hu) (by omega)
      obtain ⟨hfin_f, hfin_p⟩ := runStages_pres _ _ _ hrun u hupres
      refine ⟨by rw [hfin_f, hfst], ⟨_, by rw [hfin_p, hpol], ?_⟩, ?_⟩
      · intro q hq
        exact hfilter_mem q hq
      · intro q hq
        cases hget : dget (dgetD edges u []) q.1 with
        | none =>
          have hs := dget_isSome_of_mem hq
          rw [hget] at hs
          cases hs
        | some w2 =>
          obtain ⟨_, hmem⟩ := validate_edge_target hval (t := layers.length - 2)
            (by omega) hu hget
          rw [e1] at hmem
          exact hinvfin.last_clear q.1 hmem (htargets q hq)

/-- C10 witness: the amended theorem applied to the two-stage graph with the
single edge `S -> X` into the non-goal last-stage node `X`. -/
theorem C10_dangling_sentinel_witness :
    (∀ e, solve_stagecoach_dp cexLayers cexEdges "S" "T" "min" "+" = .error e →
      (∃ t2 u2, u2 ∈ cexLayers.getD t2 [] ∧ ¬ u2 = "S" ∧
        e = .valueError (deadEndMsg u2 (t2 + 1))) ∨
      (∃ x, e = .runtimeError (noPathMsg x))) ∧
    (∀ st, runStages "+" "min" cexLayers cexEdges (cexLayers.length - 1)
        ⟨[("T", identF "+")], [("T", [])], []⟩ = .ok st →
      dget st.f_star "S" = some (aggInit "min") ∧
      (∃ vs, dget st.policy "S" = some vs ∧ ∀ q ∈ dgetD cexEdges "S" [], q.1 ∈ vs) ∧
      (∀ q ∈ dgetD cexEdges "S" [], dget st.f_star q.1 = none)) :=
  @C10_dangling_sentinel cexLayers cexEdges "S" "T" "min" "S"
    [("X", 1), ("T", 1), ("S", 0)] ["S", "T", "X"]
    (by decide) (Or.inl rfl) (by decide) (by decide) (by decide) (by decide)

theorem max_fstar_ge {layers : List (List String)}
    {edges : List (String × List (String × ℚ))} {start goal : String}
    {so : List (String × Nat)} {fl : List String} {st : DPState}
    (hval : _validate_stagecoach layers edges start goal = .ok (so, fl))
    (hinv : DPInv "+" "max" goal layers edges 0 st) :
    ∀ (suff : List String) (t : Nat) (u : String),
      u ∈ layers.getD t [] → t < layers.length →
      EdgePath edges (u :: suff) → (u :: suff).getLast? = some goal →
      ∃ q, pathSum edges (u :: suff) = some q ∧
        (dget st.f_star u = some F.pinf ∨
         ∃ s, dget st.f_star u = some (F.fin s) ∧ q ≤ s) := by
  intro suff
  induction suff with
  | nil =>
    intro t u _ _ _ hlast
    simp at hlast
    subst hlast
    exact ⟨0, rfl, Or.inr ⟨0, hinv.goal_kept.1, le_refl 0⟩⟩
  | cons v suff2 ih =>
    intro t u hu ht hep hlast
    obtain ⟨hsome, hep2⟩ := hep
    cases hw : dget (dgetD edges u []) v with
    | none =>
      rw [hw] at hsome
      cases hsome
    | some w =>
      obtain ⟨hlt1, hvmem⟩ := validate_edge_target hval ht hu hw
      obtain ⟨q, hq, hbound⟩ := ih (t + 1) v hvmem (by omega) hep2 (by simpa using hlast)
      obtain ⟨vs, hvs, _, _⟩ := hinv.complete t (Nat.zero_le t) hlt1 u hu
      obtain ⟨fu, hfu, hnan, _⟩ := hinv.rec_eq u vs hvs
      have hnb := hinv.no_beat t (Nat.zero_le t) hlt1 u hu v hvmem w hw
      rw [betterF_max_eq] at hnb
      rw [show dgetD st.f_star u (aggInit "max") = fu by rw [dgetD, hfu]; rfl] at hnb
      have hsum : pathSum edges (u :: v :: suff2) = some (w + q) := by
        simp only [pathSum]
        rw [hw, hq]
      rcases hbound with hvp | ⟨s, hvfin, hqs⟩
      · rw [show dgetD st.f_star v (aggInit "max") = F.pinf by rw [dgetD, hvp]; rfl,
          combineF_plus_pinf] at hnb
        exact ⟨w + q, hsum, Or.inl (by rw [hfu, flt_pinf_false hnan hnb])⟩
      · rw [show dgetD st.f_star v (aggInit "max") = F.fin s by rw [dgetD, hvfin]; rfl,
          combineF_plus_fin] at hnb
        rcases flt_false_fin hnan hnb with hp | ⟨s2, hfus2, hle⟩
        · exact ⟨w + q, hsum, Or.inl (by rw [hfu, hp])⟩
        · refine ⟨w + q, hsum, Or.inr ⟨s2, by rw [hfu, hfus2], by linarith⟩⟩

/-- C8: for every valid layered graph with strictly positive weights and
`combine_op "+"`, when both the `min` solve and the `max` solve return a
Result, the maximised `optimal_cost` is at least the minimised one (both are
finite rationals on success). -/
theorem C8_min_le_max {layers : List (List String)}
    {edges : List (String × List (String × ℚ))} {start goal : String}
    {r1 r2 : StagecoachResult}
    (hpos : ∀ p ∈ edges, ∀ q ∈ p.2, 0 < q.2)
    (h1 : solve_stagecoach_dp layers edges start goal "min" "+" = .ok r1)
    (h2 : solve_stagecoach_dp layers edges start goal "max" "+" = .ok r2) :
    ∃ a b, r1.optimal_cost = F.fin a ∧ r2.optimal_cost = F.fin b ∧ a ≤ b := by
  obtain ⟨so1, fl1, st1, _, _, hval1, hrun1, hinv1, hwalk1, hc1, _, _, _⟩ :=
    solve_ok_full h1
  obtain ⟨so2, fl2, st2, _, _, hval2, hrun2, hinv2, hwalk2, hc2, _, _, _⟩ :=
    solve_ok_full h2
  obtain ⟨hchar1, hlen1, hstartm, hgoalm, _⟩ := validate_facts hval1
  obtain ⟨suff, hpe, hlink, hlast⟩ := walkPath_linked _ start [start] _ hwalk1
  have hep := linked_edgepath hinv1 suff start hlink
  obtain ⟨fu, hfu, hagg⟩ := linked_agg hinv1 suff start hlink hlast
  rw [hc1] at hfu
  injection hfu with hfu
  rw [pathAggF_plus] at hagg
  obtain ⟨a, hpa, hfa⟩ := Option.map_eq_some'.mp hagg
  obtain ⟨suff2, hpe2, hlink2, hlast2⟩ := walkPath_linked _ start [start] _ hwalk2
  obtain ⟨fu2, hfu2, hagg2⟩ := linked_agg hinv2 suff2 start hlink2 hlast2
  rw [hc2] at hfu2
  injection hfu2 with hfu2
  rw [pathAggF_plus] at hagg2
  obtain ⟨b, hpb, hfb⟩ := Option.map_eq_some'.mp hagg2
  obtain ⟨q, hq, hbound⟩ := max_fstar_ge hval2 hinv2 suff 0 start hstartm
    (by omega) hep hlast
  rw [hpa] at hq
  injection hq with hq
  subst hq
  rcases hbound with hp | ⟨s, hfin, hqs⟩
  · rw [hc2] at hp
    injection hp with hp
    have hcontra : F.fin b = F.pinf := hfb.trans (hfu2.symm.trans hp)
    cases hcontra
  · rw [hc2] at hfin
    injection hfin with hfin
    have hbs : F.fin b = F.fin s := hfb.trans (hfu2.symm.trans hfin)
    injection hbs with hbs
    exact ⟨a, b, hfu.trans hfa.symm, hfu2.trans hfb.symm, by rw [hbs]; exact hqs⟩

/-- C8 witness: the theorem applied to the example graph, whose weights are
all strictly positive. -/
theorem C8_min_le_max_witness :
    ∃ a b, exResMin.optimal_cost = F.fin a ∧ exResMax.optimal_cost = F.fin b ∧
      a ≤ b :=
  @C8_min_le_max exLayers exEdges "S" "T" exResMin exResMax
    (by decide) (by rfl) (by rfl)
